import Mathlib

/-!
Verification of the iterable-expansion and graph-merging engine of
`nipype/pipeline/utils.py` (functions `walk`, `_get_valid_pathstr`,
`_merge_graphs`, `_generate_expanded_graph`).

The Python code is shallowly embedded:
* Python strings are `List Char` (`Str`); iterable values are modelled by their
  string forms (`str(val)` is the identity on this model).
* Python dicts used as assignments are association lists with
  overwrite-on-update semantics (`updAssoc`).
* The mutable object heap is explicit: node objects and edge `connect`
  payload objects live in a `Heap` addressed by natural-number references,
  so object identity (aliasing) is reference equality.
* `networkx` digraphs are node-reference lists plus edge triples
  `(src, dst, payloadRef)`.
* The `while` loop of `_generate_expanded_graph` is embedded with explicit
  fuel; theorems show the fuel bound used is never exhausted on well-formed
  acyclic inputs.
-/

namespace Nipype

abbrev Str := List Char

/-- Build a model string from a Lean string literal. -/
def strOf (s : String) : Str := s.data

abbrev Val := Str

/-- Python `str.replace(old, new)` for a one-character `old`. -/
def pyReplace (old : Char) (new : List Char) (s : Str) : Str :=
  s.flatMap (fun c => if c = old then new else [c])

/-- `os.sep` on the POSIX systems the pipeline runs on. -/
def osSep : Char := '/'

/-- `_get_valid_pathstr` from `pipeline/utils.py`: sequentially remove the
space character, `[`, `]`, then replace `os.sep` by `_` and `,` by `.`. -/
def _get_valid_pathstr (pathstr : Str) : Str :=
  let s1 := pyReplace ' ' [] pathstr
  let s2 := pyReplace '[' [] s1
  let s3 := pyReplace ']' [] s2
  let s4 := pyReplace osSep ['_'] s3
  pyReplace ',' ['.'] s4

/-- Python dict update `path[name] = child`: overwrite the binding if the key
is present, else append it. -/
def updAssoc (m : List (Str × Val)) (k : Str) (v : Val) : List (Str × Val) :=
  if m.any (fun p => p.1 = k) then
    m.map (fun p => if p.1 = k then (k, v) else p)
  else m ++ [(k, v)]

/-- `walk(children)` from `pipeline/utils.py` (with `usename=True`): generate
all full paths in the tree of `(name, value-producer)` pairs as assignments.
The Python generator mutates one shared dict and yields copies; since every
yielded dict has all the keys of the current branch freshly set, the
persistent-update embedding is observationally equivalent. -/
def walk : List (Str × List Val) → List (Str × Val) → List (List (Str × Val))
  | [], path => [path]
  | (name, vals) :: tail, path =>
      vals.flatMap (fun child => walk tail (updAssoc path name child))

/-- Specification-side enumeration of the cartesian product of the value
lists, in nested-loop order: the first pair varies slowest (outermost loop),
the last varies fastest. -/
def assignments : List (Str × List Val) → List (List (Str × Val))
  | [] => [[]]
  | (name, vals) :: tail =>
      vals.flatMap (fun v => (assignments tail).map (fun a => (name, v) :: a))

/-- Lexicographic strict order on model strings, as Python compares `str`. -/
def strLtB : Str → Str → Bool
  | [], [] => false
  | [], _ :: _ => true
  | _ :: _, [] => false
  | a :: s, b :: t => if a = b then strLtB s t else decide (a < b)

/-- Insert into a list sorted by key (ascending), used to model Python's
`sorted(params.items())`; dict keys are unique so ties do not arise. -/
def insertSorted (p : Str × Val) : List (Str × Val) → List (Str × Val)
  | [] => [p]
  | q :: rest => if strLtB q.1 p.1 then q :: insertSorted p rest else p :: q :: rest

/-- Python `sorted(params.items())` (sorting by the unique keys). -/
def pySorted (l : List (Str × Val)) : List (Str × Val) :=
  l.foldl (fun acc p => insertSorted p acc) []

/-- One step of `paramstr = '_'.join((paramstr, key, _get_valid_pathstr(str(val))))`. -/
def paramJoin (acc : Str) (kv : Str × Val) : Str :=
  acc ++ ['_'] ++ kv.1 ++ ['_'] ++ _get_valid_pathstr kv.2

/-- The path segment `_merge_graphs` builds for one assignment `params`:
fold `'_'.join((paramstr, key, sanitized))` over `sorted(params.items())`
starting from the empty string. -/
def paramStrOf (params : List (Str × Val)) : Str :=
  (pySorted params).foldl paramJoin []

/-- What the specification's sanitization words say: strip *whitespace* and
the brackets, replace the path separator by `_` and `,` by `.`.  (The code
strips only the space character; this definition is used to refute that
reading.) -/
def specSanitizeWS (s : Str) : Str :=
  (s.filter (fun c => ¬ (c.isWhitespace ∨ c = '[' ∨ c = ']'))).map
    (fun c => if c = osSep then '_' else if c = ',' then '.' else c)

/-- The sanitization the code actually performs, in one pass. -/
def codeSanitize (s : Str) : Str :=
  (s.filter (fun c => ¬ (c = ' ' ∨ c = '[' ∨ c = ']'))).map
    (fun c => if c = osSep then '_' else if c = ',' then '.' else c)

/-! ## The object heap and the graph model -/

/- Object references (heap addresses) are plain naturals. -/

/-- The mutable attributes of a pipeline node object (`NodeWrapper`):
`_id`, `iterables` (post-normalization: a mapping from parameter name to the
finite value list its producer yields), `parameterization` (`None` is
identified with the empty list, as the code's truthiness test makes the two
indistinguishable) and `inputs` (mutated through `set_input`). -/
structure NodeData where
  nid : Str
  iterables : List (Str × List Val)
  parameterization : List Str
  inputs : List (Str × Val)
deriving DecidableEq, Repr

instance : Inhabited NodeData := ⟨⟨[], [], [], []⟩⟩

/-- An edge `connect` payload: the list of
(source-port-specifier, destination-port-field) pairs.  The engine never
interprets it. -/
abbrev Payload := List (Str × Str)

/-- The Python object heap: node objects and `connect`-payload objects,
addressed by references; `fresh` is the next unused reference. -/
structure Heap where
  nodeH : List (Nat × NodeData)
  payloadH : List (Nat × Payload)
  fresh : Nat
deriving DecidableEq, Repr

/-- A `networkx` digraph: the member node objects, and directed edges
carrying a reference to their `connect` payload object. -/
structure Graph where
  nodes : List Nat
  edges : List (Nat × Nat × Nat)
deriving DecidableEq, Repr

/-- Dereference a node object (junk default for dangling references). -/
def lookupN (h : Heap) (r : Nat) : NodeData :=
  match h.nodeH.find? (fun p => p.1 = r) with
  | some p => p.2
  | none => default

/-- Dereference a payload object. -/
def lookupP (h : Heap) (r : Nat) : Payload :=
  match h.payloadH.find? (fun p => p.1 = r) with
  | some p => p.2
  | none => []

/-- Mutate the node object `r` in place. -/
def setN (h : Heap) (r : Nat) (f : NodeData → NodeData) : Heap :=
  { h with nodeH := h.nodeH.map (fun p => if p.1 = r then (p.1, f p.2) else p) }

/-- Allocate a fresh node object. -/
def allocN (h : Heap) (d : NodeData) : Heap × Nat :=
  ({ h with nodeH := (h.fresh, d) :: h.nodeH, fresh := h.fresh + 1 }, h.fresh)

/-- Allocate a fresh payload object. -/
def allocP (h : Heap) (d : Payload) : Heap × Nat :=
  ({ h with payloadH := (h.fresh, d) :: h.payloadH, fresh := h.fresh + 1 }, h.fresh)

/-- Look a reference up in a copy map (old ↦ new); identity off the domain. -/
def mlook (m : List (Nat × Nat)) (r : Nat) : Nat :=
  match m.find? (fun q => q.1 = r) with
  | some q => q.2
  | none => r

/-- `deepcopy` of the node objects of a subgraph: allocate a fresh object per
node with the same attribute values, returning the old-to-new map. -/
def copyNodes (h : Heap) : List Nat → Heap × List (Nat × Nat)
  | [] => (h, [])
  | r :: rs =>
    ((copyNodes (allocN h (lookupN h r)).1 rs).1,
      (r, h.fresh) :: (copyNodes (allocN h (lookupN h r)).1 rs).2)

/-- `deepcopy` of the payload objects hanging off a subgraph's edges, with
the deepcopy memo: a payload object shared by several edges is copied once
and shared by the copied edges too. -/
def copyPayloads (h : Heap) (acc : List (Nat × Nat)) : List Nat → Heap × List (Nat × Nat)
  | [] => (h, acc)
  | p :: ps =>
    match acc.find? (fun q => q.1 = p) with
    | some _ => copyPayloads h acc ps
    | none => copyPayloads (allocP h (lookupP h p)).1 (acc ++ [(p, h.fresh)]) ps

/-- `Gc = deepcopy(subgraph)`: fresh node and payload objects with equal
values, edges re-linked through the copy maps.  Also returns the node map
(the deepcopy memo restricted to nodes), which the proofs use as the
copy-to-source correspondence. -/
def deepcopyGraph (h : Heap) (S : Graph) : Heap × Graph × List (Nat × Nat) :=
  let cn := copyNodes h S.nodes
  let cp := copyPayloads cn.1 [] (S.edges.map (fun e => e.2.2))
  let es := S.edges.map (fun e => (mlook cn.2 e.1, mlook cn.2 e.2.1, mlook cp.2 e.2.2))
  (cp.1, ⟨cn.2.map (fun q => q.2), es⟩, cn.2)

/-- `supergraph.remove_nodes_from(nodes)`: drop the nodes and all incident
edges. -/
def removeNodes (G : Graph) (ns : List Nat) : Graph :=
  { nodes := G.nodes.filter (fun r => r ∉ ns),
    edges := G.edges.filter (fun e => e.1 ∉ ns ∧ e.2.1 ∉ ns) }

/-- The node-induced subgraph `graph_in.subgraph(subnodes)`. -/
def subgraphOf (G : Graph) (ns : List Nat) : Graph :=
  { nodes := G.nodes.filter (fun r => r ∈ ns),
    edges := G.edges.filter (fun e => e.1 ∈ ns ∧ e.2.1 ∈ ns) }

/-- Step 1 of `_merge_graphs`: for each subgraph node `n`, locate the first
supergraph node with identity `n._id` (`ids.index`, `None` models the
`ValueError`), and record each of its in-edges whose source lies outside the
subgraph as `(n._id, source, payloadRef)`.  The recorded payload reference is
the supergraph's edge-data object itself, not a copy. -/
def edgeinfoOf (h : Heap) (G : Graph) (S : Graph) : List Nat → Option (List (Str × Nat × Nat))
  | [] => some []
  | n :: rest =>
    match G.nodes.find? (fun r => (lookupN h r).nid = (lookupN h n).nid) with
    | none => none
    | some r =>
      let es := G.edges.filter (fun e => e.2.1 = r ∧ e.1 ∉ S.nodes)
      (edgeinfoOf h G S rest).map
        (fun tl => es.map (fun e => ((lookupN h n).nid, e.1, e.2.2)) ++ tl)

/-- `Gc.nodes()[nodeidx].set_input(key, val)` applied for each pair of
`sorted(params.items())` in order. -/
def applyParams (h : Heap) (d : Nat) (params : List (Str × Val)) : Heap :=
  (pySorted params).foldl
    (fun h kv => setN h d (fun nd => { nd with inputs := updAssoc nd.inputs kv.1 kv.2 })) h

/-- Front-insert the copy's path segment into `parameterization` of every
node of the copy (`paramlist + n.parameterization`, `None` treated as `[]`). -/
def prependParamAll (h : Heap) (seg : Str) (ns : List Nat) : Heap :=
  ns.foldl
    (fun h r => setN h r (fun nd => { nd with parameterization := seg :: nd.parameterization })) h

/-- The final per-node loop of a `_merge_graphs` pass: for each copied node in
order, first reconnect every recorded external in-edge whose key equals the
node's (still unsuffixed) identity — reusing the recorded payload object —
then append `str(i)` to the node's identity. -/
def reconnectAndSuffix (i : Nat) (einfo : List (Str × Nat × Nat)) :
    Heap → Graph → List Nat → Heap × Graph
  | h, G, [] => (h, G)
  | h, G, r :: rs =>
    let matched := einfo.filter (fun t => t.1 = (lookupN h r).nid)
    let G1 : Graph := { G with edges := G.edges ++ matched.map (fun t => (t.2.1, r, t.2.2)) }
    let h1 := setN h r (fun nd => { nd with nid := nd.nid ++ Nat.toDigits 10 i })
    reconnectAndSuffix i einfo h1 G1 rs

/-- Proof-facing record of one duplication: the iteration index `i`, the
assignment, and the deepcopy's node map. -/
structure CopyInfo where
  idx : Nat
  params : List (Str × Val)
  nmap : List (Nat × Nat)
deriving DecidableEq, Repr

/-- The body of `for i, params in enumerate(walk(iterables.items()))`:
deep-copy the subgraph, locate the driving node by `nodeid` in the copy
(`ids.index`), apply the assignment via `set_input`, build and front-insert
the path segment, insert the copy's nodes and edges, reconnect recorded
external in-edges and suffix identities with `str(i)`. -/
def mergeCopy (S : Graph) (nodeid : Str) (einfo : List (Str × Nat × Nat))
    (h : Heap) (G : Graph) (i : Nat) (params : List (Str × Val)) :
    Option (Heap × Graph × CopyInfo) :=
  let dc := deepcopyGraph h S
  let h1 := dc.1
  let Gc := dc.2.1
  let nm := dc.2.2
  match Gc.nodes.find? (fun r => (lookupN h1 r).nid = nodeid) with
  | none => none
  | some d =>
    let seg := paramStrOf params
    let h2 := applyParams h1 d params
    let h3 := prependParamAll h2 seg Gc.nodes
    let G1 : Graph := { nodes := G.nodes ++ Gc.nodes, edges := G.edges ++ Gc.edges }
    let hG := reconnectAndSuffix i einfo h3 G1 Gc.nodes
    some (hG.1, hG.2, ⟨i, params, nm⟩)

/-- The duplication loop of `_merge_graphs` over the enumerated assignments. -/
def mergeLoop (S : Graph) (nodeid : Str) (einfo : List (Str × Nat × Nat)) :
    List (List (Str × Val)) → Nat → Heap → Graph → List CopyInfo →
    Option (Heap × Graph × List CopyInfo)
  | [], _, h, G, infos => some (h, G, infos)
  | ps :: rest, i, h, G, infos =>
    match mergeCopy S nodeid einfo h G i ps with
    | none => none
    | some r => mergeLoop S nodeid einfo rest (i + 1) r.1 r.2.1 (infos ++ [r.2.2])

/-- `_merge_graphs`, instrumented with the list of `CopyInfo` records.
`none` models the `ValueError` of a failed `ids.index` lookup. -/
def mergeGraphsC (h : Heap) (G : Graph) (nodes : List Nat) (S : Graph)
    (nodeid : Str) (iterables : List (Str × List Val)) :
    Option (Heap × Graph × List CopyInfo) :=
  match edgeinfoOf h G S S.nodes with
  | none => none
  | some einfo =>
    mergeLoop S nodeid einfo (walk iterables []) 0 h (removeNodes G nodes) []

/-- `_merge_graphs` from `pipeline/utils.py`. -/
def _merge_graphs (h : Heap) (G : Graph) (nodes : List Nat) (S : Graph)
    (nodeid : Str) (iterables : List (Str × List Val)) : Option (Heap × Graph) :=
  (mergeGraphsC h G nodes S nodeid iterables).map (fun t => (t.1, t.2.1))

/-! ## Topological sort (`nx.topological_sort`) and reachability
(`nx.dfs_preorder`) -/

/-- Kahn's algorithm: repeatedly remove the first remaining node with no
incoming edge from a remaining node; fails (as `nx.topological_sort` raises)
exactly when a directed cycle blocks progress. -/
def kahnGo (es : List (Nat × Nat × Nat)) : Nat → List Nat → Option (List Nat)
  | 0, ns => if ns.isEmpty then some [] else none
  | fuel + 1, ns =>
    if ns.isEmpty then some []
    else
      match ns.find? (fun n => ¬ es.any (fun e => e.2.1 = n ∧ e.1 ∈ ns)) with
      | none => none
      | some n => (kahnGo es fuel (ns.erase n)).map (fun l => n :: l)

/-- `nx.topological_sort(graph_in)`, `none` modelling the raised exception on
cyclic input. -/
def topoSort (G : Graph) : Option (List Nat) :=
  kahnGo G.edges G.nodes.length G.nodes

/-- One saturation pass of forward reachability. -/
def reachStep (es : List (Nat × Nat × Nat)) (acc : List Nat) : List Nat :=
  es.foldl (fun acc e => if e.1 ∈ acc ∧ e.2.1 ∉ acc then acc ++ [e.2.1] else acc) acc

/-- Iterated saturation. -/
def reachIter (es : List (Nat × Nat × Nat)) : Nat → List Nat → List Nat
  | 0, acc => acc
  | k + 1, acc => reachIter es k (reachStep es acc)

/-- `nx.dfs_preorder(graph_in, node)` as a node set: the forward-reachable
descendant closure of `r`, including `r` itself. -/
def reachableFrom (G : Graph) (r : Nat) : List Nat :=
  reachIter G.edges G.nodes.length [r]

/-! ## The expansion driver (`_generate_expanded_graph`) -/

/-- Nodes still carrying non-empty iterables, in reversed topological order
(sink-ward first): `inodes`. -/
def inodesOf (h : Heap) (L : List Nat) : List Nat :=
  L.reverse.filter (fun r => !(lookupN h r).iterables.isEmpty)

inductive StepRes where
  | cycleErr
  | idErr
  | done
  | next (h : Heap) (G : Graph)
deriving DecidableEq, Repr

/-- Expansion of the selected node `c`: capture its iterables, clear them and
append `'I'` to its identity, compute the descendant closure and its induced
subgraph, and hand everything to `_merge_graphs`. -/
def expandAt (h : Heap) (G : Graph) (c : Nat) : Option (Heap × Graph) :=
  let iters := (lookupN h c).iterables
  let h1 := setN h c (fun nd => { nd with iterables := [], nid := nd.nid ++ ['I'] })
  let subnodes := reachableFrom G c
  _merge_graphs h1 G subnodes (subgraphOf G subnodes) ((lookupN h1 c).nid) iters

/-- One iteration of the driver's `while` loop. -/
def expandStep (h : Heap) (G : Graph) : StepRes :=
  match topoSort G with
  | none => .cycleErr
  | some L =>
    match inodesOf h L with
    | [] => .done
    | c :: _ =>
      match expandAt h G c with
      | none => .idErr
      | some r => .next r.1 r.2

inductive ExpErr where
  | cycle
  | idNotFound
  | fuel
deriving DecidableEq, Repr

/-- The driver's `while` loop with explicit fuel. -/
def expandLoop : Nat → Heap → Graph → Except ExpErr (Heap × Graph)
  | 0, _, _ => .error .fuel
  | fuel + 1, h, G =>
    match expandStep h G with
    | .cycleErr => .error .cycle
    | .idErr => .error .idNotFound
    | .done => .ok (h, G)
    | .next h' G' => expandLoop fuel h' G'

/-- Number of distinct nodes of `G` carrying non-empty iterables. -/
def iterCount (h : Heap) (G : Graph) : Nat :=
  G.nodes.countP (fun r => !(lookupN h r).iterables.isEmpty)

/-- `_generate_expanded_graph` from `pipeline/utils.py`.  `iterables` are
modelled post-normalization (the two representation-conversion loops of the
source turn tuples/pair-lists into the mapping form embedded here).  The
fuel `iterCount + 1` is shown adequate on well-formed acyclic inputs. -/
def _generate_expanded_graph (h : Heap) (G : Graph) : Except ExpErr (Heap × Graph) :=
  expandLoop (iterCount h G + 1) h G

/-! ## Well-formedness -/

/-- Heap sanity: every live object reference is below `fresh`. -/
def heapWF (h : Heap) : Prop :=
  (∀ p ∈ h.nodeH, p.1 < h.fresh) ∧ (∀ p ∈ h.payloadH, p.1 < h.fresh)

/-- Graph sanity: distinct node objects, edge endpoints are member nodes,
all references live below the heap's `fresh` mark, and every member node
dereferences to an allocated object. -/
def graphWF (h : Heap) (G : Graph) : Prop :=
  G.nodes.Nodup ∧
  (∀ e ∈ G.edges, e.1 ∈ G.nodes ∧ e.2.1 ∈ G.nodes) ∧
  (∀ r ∈ G.nodes, r < h.fresh) ∧
  (∀ e ∈ G.edges, e.2.2 < h.fresh) ∧
  (∀ r ∈ G.nodes, (h.nodeH.find? (fun p => p.1 = r)).isSome)

def WF (h : Heap) (G : Graph) : Prop := heapWF h ∧ graphWF h G

instance (h : Heap) : Decidable (heapWF h) := by unfold heapWF; infer_instance

instance (h : Heap) (G : Graph) : Decidable (graphWF h G) := by
  unfold graphWF; infer_instance

instance (h : Heap) (G : Graph) : Decidable (WF h G) := by unfold WF; infer_instance

/-- The edge relation of a graph. -/
def edgeRel (G : Graph) (u v : Nat) : Prop := ∃ p, (u, v, p) ∈ G.edges

/-- A directed cycle: an edge `u → v` together with a path back from `v`
to `u`. -/
def hasCycle (G : Graph) : Prop :=
  ∃ u v, edgeRel G u v ∧ Relation.ReflTransGen (edgeRel G) v u

/-- A rank function certifying acyclicity. -/
def RankOk (es : List (Nat × Nat × Nat)) (ρ : Nat → Nat) : Prop :=
  ∀ e ∈ es, ρ e.1 < ρ e.2.1

/-! ## The parameter walker (claim C4) -/

theorem updAssoc_of_not_mem (path : List (Str × Val)) (k : Str) (v : Val)
    (hk : path.any (fun p => p.1 = k) = false) :
    updAssoc path k v = path ++ [(k, v)] := by
  unfold updAssoc
  simp [hk]

theorem walk_eq_map_append :
    ∀ (children : List (Str × List Val)) (path : List (Str × Val)),
      (∀ name ∈ children.map Prod.fst, path.any (fun p => p.1 = name) = false) →
      (children.map Prod.fst).Nodup →
      walk children path = (assignments children).map (fun a => path ++ a) := by
  intro children
  induction children with
  | nil =>
    intro path _ _
    simp [walk, assignments]
  | cons hd tail ih =>
    obtain ⟨name, vals⟩ := hd
    intro path hpath hnd
    simp only [List.map_cons, List.nodup_cons] at hnd
    have hname : path.any (fun p => p.1 = name) = false :=
      hpath name (by simp)
    simp only [walk, assignments]
    rw [List.map_flatMap]
    apply List.flatMap_congr
    intro v _
    rw [updAssoc_of_not_mem path name v hname]
    rw [ih (path ++ [(name, v)]) ?_ hnd.2]
    · rw [List.map_map]
      apply List.map_congr_left
      intro a _
      simp
    · intro nm hnm
      have h1 : path.any (fun p => p.1 = nm) = false :=
        hpath nm (by simp [hnm])
      have h2 : nm ≠ name := by
        intro he
        exact hnd.1 (he ▸ hnm)
      simp [List.any_append, h1, h2, Ne.symm h2]

/-- C4: with pairwise-distinct names, `walk` enumerates exactly the
assignments of the full cartesian product in nested-loop order (first pair
slowest, last fastest); for the empty input it yields exactly the empty
mapping. -/
theorem walk_cartesian_product (children : List (Str × List Val))
    (hnd : (children.map Prod.fst).Nodup) :
    walk children [] = assignments children ∧ walk [] [] = [[]] := by
  constructor
  · rw [walk_eq_map_append children [] (by intro name _; rfl) hnd]
    simp
  · rfl

theorem walk_cartesian_product_witness :
    ((([(strOf "a", [strOf "1", strOf "2"]),
        (strOf "b", [strOf "3", strOf "4"])].map Prod.fst).Nodup) ∧
      walk [(strOf "a", [strOf "1", strOf "2"]), (strOf "b", [strOf "3", strOf "4"])] [] =
        assignments [(strOf "a", [strOf "1", strOf "2"]), (strOf "b", [strOf "3", strOf "4"])]) :=
  ⟨by decide,
    (walk_cartesian_product
      [(strOf "a", [strOf "1", strOf "2"]), (strOf "b", [strOf "3", strOf "4"])]
      (by decide)).1⟩

/-! ## The path segment and its sanitization (claim C5) -/

theorem pyReplace_append (old : Char) (new : List Char) (s t : Str) :
    pyReplace old new (s ++ t) = pyReplace old new s ++ pyReplace old new t := by
  unfold pyReplace
  exact List.flatMap_append s t _

theorem _get_valid_pathstr_append (s t : Str) :
    _get_valid_pathstr (s ++ t) = _get_valid_pathstr s ++ _get_valid_pathstr t := by
  unfold _get_valid_pathstr
  simp only [pyReplace_append]

theorem codeSanitize_append (s t : Str) :
    codeSanitize (s ++ t) = codeSanitize s ++ codeSanitize t := by
  unfold codeSanitize
  simp

theorem _get_valid_pathstr_single (c : Char) :
    _get_valid_pathstr [c] = codeSanitize [c] := by
  by_cases h1 : c = ' '
  · subst h1; rfl
  · by_cases h2 : c = '['
    · subst h2; rfl
    · by_cases h3 : c = ']'
      · subst h3; rfl
      · by_cases h4 : c = osSep
        · subst h4; rfl
        · by_cases h5 : c = ','
          · subst h5; rfl
          · simp [_get_valid_pathstr, pyReplace, codeSanitize, h1, h2, h3, h4, h5]

theorem _get_valid_pathstr_eq_codeSanitize (s : Str) :
    _get_valid_pathstr s = codeSanitize s := by
  induction s with
  | nil => rfl
  | cons c t ih =>
    have : c :: t = [c] ++ t := rfl
    rw [this, _get_valid_pathstr_append, codeSanitize_append,
      _get_valid_pathstr_single, ih]

theorem foldl_paramJoin (l : List (Str × Val)) :
    ∀ acc : Str,
      l.foldl paramJoin acc =
        acc ++ l.flatMap (fun kv => '_' :: (kv.1 ++ '_' :: _get_valid_pathstr kv.2)) := by
  induction l with
  | nil => intro acc; simp
  | cons kv rest ih =>
    intro acc
    rw [List.foldl_cons, ih]
    simp [paramJoin]

/-- C5 (amended): the path segment is the concatenation of
`'_' ++ name ++ '_' ++ sanitized(value)` over the assignment's pairs sorted
by name, where the sanitization removes the characters `' '`, `'['`, `']'`
(only the space character, not all whitespace), replaces the path separator
by `'_'` and `','` by `'.'`. -/
theorem paramStr_segments :
    (∀ params : List (Str × Val),
        paramStrOf params =
          (pySorted params).flatMap
            (fun kv => '_' :: (kv.1 ++ '_' :: _get_valid_pathstr kv.2))) ∧
      (∀ s : Str, _get_valid_pathstr s = codeSanitize s) ∧
      paramStrOf [(strOf "a", strOf "1"), (strOf "b", strOf "3")] = strOf "_a_1_b_3" := by
  refine ⟨?_, _get_valid_pathstr_eq_codeSanitize, by decide⟩
  intro params
  unfold paramStrOf
  rw [foldl_paramJoin]
  simp

/-- C5 counterexample: the claim's sanitization "strips whitespace", but the
code keeps a tab character, which the whitespace-stripping reading would
remove. -/
theorem paramStr_whitespace_cex :
    _get_valid_pathstr (strOf "\t") = strOf "\t" ∧
      specSanitizeWS (strOf "\t") = [] ∧
      paramStrOf [(strOf "a", strOf "\t")] = strOf "_a_\t" ∧
      strOf "_a_\t" ≠ strOf "_a_" := by
  refine ⟨by decide, by decide, by decide, by decide⟩

/-! ## Heap-operation lemmas -/

/-- A node reference that dereferences to an allocated object. -/
def nodeLive (h : Heap) (r : Nat) : Prop :=
  (h.nodeH.find? (fun p => p.1 = r)).isSome

theorem find?_map_keyed (l : List (Nat × NodeData)) (x r' : Nat) (f : NodeData → NodeData) :
    ((l.map (fun p => if p.1 = r' then (p.1, f p.2) else p)).find? (fun p => p.1 = x)) =
      (l.find? (fun p => p.1 = x)).map (fun p => if p.1 = r' then (p.1, f p.2) else p) := by
  rw [List.find?_map]
  have hpred : ((fun p : Nat × NodeData => decide (p.1 = x)) ∘
      fun p => if p.1 = r' then (p.1, f p.2) else p) =
      (fun p : Nat × NodeData => decide (p.1 = x)) := by
    funext p
    by_cases hp : p.1 = r' <;> simp [Function.comp, hp]
  rw [hpred]

theorem lookupN_setN_ne (h : Heap) (r' : Nat) (f : NodeData → NodeData) (x : Nat)
    (hne : x ≠ r') : lookupN (setN h r' f) x = lookupN h x := by
  unfold lookupN setN
  simp only [find?_map_keyed]
  cases hfind : h.nodeH.find? (fun p => p.1 = x) with
  | none => rfl
  | some p =>
    have hp : p.1 = x := by
      have := List.find?_some hfind
      simpa using this
    simp [hp, hne]

theorem lookupN_setN_same (h : Heap) (r : Nat) (f : NodeData → NodeData)
    (hl : nodeLive h r) : lookupN (setN h r f) r = f (lookupN h r) := by
  unfold nodeLive at hl
  unfold lookupN setN
  simp only [find?_map_keyed]
  cases hfind : h.nodeH.find? (fun p => p.1 = r) with
  | none => rw [hfind] at hl; simp at hl
  | some p =>
    have hp : p.1 = r := by
      have := List.find?_some hfind
      simpa using this
    simp [hp]

theorem lookupN_setN_field {α : Type} (h : Heap) (r' : Nat) (f : NodeData → NodeData)
    (x : Nat) (φ : NodeData → α) (hf : ∀ nd, φ (f nd) = φ nd) :
    φ (lookupN (setN h r' f) x) = φ (lookupN h x) := by
  unfold lookupN setN
  simp only [find?_map_keyed]
  cases hfind : h.nodeH.find? (fun p => p.1 = x) with
  | none => rfl
  | some p =>
    by_cases hp : p.1 = r' <;> simp [hp, hf]

theorem setN_fresh (h : Heap) (r : Nat) (f : NodeData → NodeData) :
    (setN h r f).fresh = h.fresh := rfl

theorem setN_payloadH (h : Heap) (r : Nat) (f : NodeData → NodeData) :
    (setN h r f).payloadH = h.payloadH := rfl

theorem lookupP_setN (h : Heap) (r : Nat) (f : NodeData → NodeData) (x : Nat) :
    lookupP (setN h r f) x = lookupP h x := rfl

theorem nodeLive_setN (h : Heap) (r : Nat) (f : NodeData → NodeData) (x : Nat) :
    nodeLive (setN h r f) x ↔ nodeLive h x := by
  unfold nodeLive setN
  simp only [find?_map_keyed]
  cases h.nodeH.find? (fun p => p.1 = x) <;> simp

theorem heapWF_setN (h : Heap) (r : Nat) (f : NodeData → NodeData)
    (hwf : heapWF h) : heapWF (setN h r f) := by
  obtain ⟨h1, h2⟩ := hwf
  refine ⟨?_, ?_⟩
  · intro p hp
    simp only [setN, List.mem_map] at hp
    obtain ⟨q, hq, hqe⟩ := hp
    have hlt := h1 q hq
    show p.1 < h.fresh
    by_cases hq' : q.1 = r
    · simp only [hq', if_pos rfl] at hqe
      rw [← hqe]
      rw [hq'] at hlt
      exact hlt
    · simp only [hq', if_neg hq'] at hqe
      rw [← hqe]
      exact hlt
  · exact h2

theorem lookupN_allocN_old (h : Heap) (d : NodeData) (x : Nat) (hx : x ≠ h.fresh) :
    lookupN (allocN h d).1 x = lookupN h x := by
  unfold lookupN allocN
  simp [List.find?_cons, Ne.symm hx, hx]

theorem lookupN_allocN_new (h : Heap) (d : NodeData) :
    lookupN (allocN h d).1 h.fresh = d := by
  unfold lookupN allocN
  simp [List.find?_cons]

theorem allocN_fresh (h : Heap) (d : NodeData) : (allocN h d).1.fresh = h.fresh + 1 := rfl

theorem allocN_ref (h : Heap) (d : NodeData) : (allocN h d).2 = h.fresh := rfl

theorem allocN_payloadH (h : Heap) (d : NodeData) : (allocN h d).1.payloadH = h.payloadH := rfl

theorem lookupP_allocN (h : Heap) (d : NodeData) (x : Nat) :
    lookupP (allocN h d).1 x = lookupP h x := rfl

theorem nodeLive_allocN_new (h : Heap) (d : NodeData) : nodeLive (allocN h d).1 h.fresh := by
  unfold nodeLive allocN
  simp [List.find?_cons]

theorem nodeLive_allocN_old (h : Heap) (d : NodeData) (x : Nat) (hx : nodeLive h x) :
    nodeLive (allocN h d).1 x := by
  unfold nodeLive allocN at *
  by_cases he : h.fresh = x
  · simp [List.find?_cons, he]
  · simpa [List.find?_cons, he] using hx

theorem heapWF_allocN (h : Heap) (d : NodeData) (hwf : heapWF h) :
    heapWF (allocN h d).1 := by
  obtain ⟨h1, h2⟩ := hwf
  refine ⟨?_, ?_⟩
  · intro p hp
    simp only [allocN, List.mem_cons] at hp
    show p.1 < h.fresh + 1
    rcases hp with hp | hp
    · simp [hp]
    · have hq := h1 p hp
      exact Nat.lt_succ_of_lt hq
  · intro p hp
    have hq := h2 p hp
    show p.1 < h.fresh + 1
    exact Nat.lt_succ_of_lt hq

theorem lookupP_allocP_old (h : Heap) (d : Payload) (x : Nat) (hx : x ≠ h.fresh) :
    lookupP (allocP h d).1 x = lookupP h x := by
  unfold lookupP allocP
  simp [List.find?_cons, Ne.symm hx, hx]

theorem lookupP_allocP_new (h : Heap) (d : Payload) :
    lookupP (allocP h d).1 h.fresh = d := by
  unfold lookupP allocP
  simp [List.find?_cons]

theorem allocP_fresh (h : Heap) (d : Payload) : (allocP h d).1.fresh = h.fresh + 1 := rfl

theorem allocP_ref (h : Heap) (d : Payload) : (allocP h d).2 = h.fresh := rfl

theorem lookupN_allocP (h : Heap) (d : Payload) (x : Nat) :
    lookupN (allocP h d).1 x = lookupN h x := rfl

theorem nodeLive_allocP (h : Heap) (d : Payload) (x : Nat) :
    nodeLive (allocP h d).1 x ↔ nodeLive h x := Iff.rfl

theorem heapWF_allocP (h : Heap) (d : Payload) (hwf : heapWF h) :
    heapWF (allocP h d).1 := by
  obtain ⟨h1, h2⟩ := hwf
  refine ⟨?_, ?_⟩
  · intro p hp
    have hq := h1 p hp
    show p.1 < h.fresh + 1
    exact Nat.lt_succ_of_lt hq
  · intro p hp
    simp only [allocP, List.mem_cons] at hp
    show p.1 < h.fresh + 1
    rcases hp with hp | hp
    · simp [hp]
    · have hq := h2 p hp
      exact Nat.lt_succ_of_lt hq

/-! ## Deepcopy lemmas -/

theorem copyNodes_keys (h : Heap) (rs : List Nat) :
    (copyNodes h rs).2.map (fun q => q.1) = rs := by
  induction rs generalizing h with
  | nil => rfl
  | cons r rest ih => simp [copyNodes, ih]

theorem copyNodes_fresh (h : Heap) (rs : List Nat) :
    (copyNodes h rs).1.fresh = h.fresh + rs.length := by
  induction rs generalizing h with
  | nil => rfl
  | cons r rest ih =>
    simp only [copyNodes, ih, allocN_fresh, List.length_cons]
    omega

theorem copyNodes_payloadH (h : Heap) (rs : List Nat) :
    (copyNodes h rs).1.payloadH = h.payloadH := by
  induction rs generalizing h with
  | nil => rfl
  | cons r rest ih => simp [copyNodes, ih, allocN_payloadH]

theorem copyNodes_lookupP (h : Heap) (rs : List Nat) (x : Nat) :
    lookupP (copyNodes h rs).1 x = lookupP h x := by
  unfold lookupP
  rw [copyNodes_payloadH]

theorem copyNodes_range (h : Heap) (rs : List Nat) :
    ∀ q ∈ (copyNodes h rs).2, h.fresh ≤ q.2 ∧ q.2 < (copyNodes h rs).1.fresh := by
  induction rs generalizing h with
  | nil => intro q hq; simp [copyNodes] at hq
  | cons r rest ih =>
    intro q hq
    simp only [copyNodes, List.mem_cons] at hq
    rw [copyNodes_fresh]
    rcases hq with hq | hq
    · subst hq
      simp only [List.length_cons]
      omega
    · have := ih (allocN h (lookupN h r)).1 q hq
      rw [copyNodes_fresh, allocN_fresh] at this
      simp only [List.length_cons]
      omega

theorem copyNodes_lookup_old (h : Heap) (rs : List Nat) (x : Nat) (hx : x < h.fresh) :
    lookupN (copyNodes h rs).1 x = lookupN h x := by
  induction rs generalizing h with
  | nil => rfl
  | cons r rest ih =>
    show lookupN (copyNodes (allocN h (lookupN h r)).1 rest).1 x = lookupN h x
    rw [ih (allocN h (lookupN h r)).1 (by rw [allocN_fresh]; omega)]
    exact lookupN_allocN_old h _ x (by omega)

theorem copyNodes_lookup_new (h : Heap) (rs : List Nat) (hrs : ∀ o ∈ rs, o < h.fresh) :
    ∀ q ∈ (copyNodes h rs).2, lookupN (copyNodes h rs).1 q.2 = lookupN h q.1 := by
  induction rs generalizing h with
  | nil => intro q hq; simp [copyNodes] at hq
  | cons r rest ih =>
    intro q hq
    simp only [copyNodes, List.mem_cons] at hq
    rcases hq with hq | hq
    · subst hq
      show lookupN (copyNodes (allocN h (lookupN h r)).1 rest).1 h.fresh = lookupN h r
      rw [copyNodes_lookup_old _ _ _ (by rw [allocN_fresh]; omega)]
      exact lookupN_allocN_new h (lookupN h r)
    · have hrs' : ∀ o ∈ rest, o < (allocN h (lookupN h r)).1.fresh := by
        intro o ho
        rw [allocN_fresh]
        have := hrs o (List.mem_cons_of_mem r ho)
        omega
      have := ih (allocN h (lookupN h r)).1 hrs' q hq
      show lookupN (copyNodes (allocN h (lookupN h r)).1 rest).1 q.2 = lookupN h q.1
      rw [this]
      exact lookupN_allocN_old h _ q.1
        (by have := hrs q.1 (by exact List.mem_cons_of_mem r (by
              have hk := copyNodes_keys (allocN h (lookupN h r)).1 rest
              rw [← hk]
              exact List.mem_map_of_mem (fun q => q.1) hq));
            omega)

theorem copyNodes_vals_nodup (h : Heap) (rs : List Nat) :
    ((copyNodes h rs).2.map (fun q => q.2)).Nodup := by
  induction rs generalizing h with
  | nil => simp [copyNodes]
  | cons r rest ih =>
    simp only [copyNodes, List.map_cons, List.nodup_cons]
    refine ⟨?_, ih (allocN h (lookupN h r)).1⟩
    intro hmem
    simp only [List.mem_map] at hmem
    obtain ⟨q, hq, hqe⟩ := hmem
    have := copyNodes_range (allocN h (lookupN h r)).1 rest q hq
    rw [allocN_fresh] at this
    omega

theorem copyNodes_live_new (h : Heap) (rs : List Nat) :
    ∀ q ∈ (copyNodes h rs).2, nodeLive (copyNodes h rs).1 q.2 := by
  induction rs generalizing h with
  | nil => intro q hq; simp [copyNodes] at hq
  | cons r rest ih =>
    intro q hq
    simp only [copyNodes, List.mem_cons] at hq
    rcases hq with hq | hq
    · subst hq
      show nodeLive (copyNodes (allocN h (lookupN h r)).1 rest).1 h.fresh
      have hlive : nodeLive (allocN h (lookupN h r)).1 h.fresh := nodeLive_allocN_new h _
      clear ih
      generalize (allocN h (lookupN h r)).1 = h1 at hlive ⊢
      induction rest generalizing h1 with
      | nil => exact hlive
      | cons r2 rest2 ih2 =>
        show nodeLive (copyNodes (allocN h1 (lookupN h1 r2)).1 rest2).1 h.fresh
        exact ih2 _ (nodeLive_allocN_old h1 _ h.fresh hlive)
    · exact ih (allocN h (lookupN h r)).1 q hq

theorem copyNodes_live_old (h : Heap) (rs : List Nat) (x : Nat) (hx : nodeLive h x) :
    nodeLive (copyNodes h rs).1 x := by
  induction rs generalizing h with
  | nil => exact hx
  | cons r rest ih =>
    show nodeLive (copyNodes (allocN h (lookupN h r)).1 rest).1 x
    exact ih (allocN h (lookupN h r)).1 (nodeLive_allocN_old h _ x hx)

theorem copyNodes_heapWF (h : Heap) (rs : List Nat) (hwf : heapWF h) :
    heapWF (copyNodes h rs).1 := by
  induction rs generalizing h with
  | nil => exact hwf
  | cons r rest ih =>
    show heapWF (copyNodes (allocN h (lookupN h r)).1 rest).1
    exact ih (allocN h (lookupN h r)).1 (heapWF_allocN h _ hwf)

theorem copyPayloads_cons (h : Heap) (acc : List (Nat × Nat)) (p0 : Nat) (rest : List Nat) :
    copyPayloads h acc (p0 :: rest) =
      match acc.find? (fun q : Nat × Nat => q.1 = p0) with
      | some _ => copyPayloads h acc rest
      | none => copyPayloads (allocP h (lookupP h p0)).1 (acc ++ [(p0, h.fresh)]) rest := rfl

theorem copyPayloads_nodeH (h : Heap) (acc : List (Nat × Nat)) (ps : List Nat) :
    (copyPayloads h acc ps).1.nodeH = h.nodeH := by
  induction ps generalizing h acc with
  | nil => rfl
  | cons p rest ih =>
    rw [copyPayloads_cons]
    cases acc.find? (fun q : Nat × Nat => q.1 = p) with
    | some q => exact ih h acc
    | none => exact ih (allocP h (lookupP h p)).1 (acc ++ [(p, h.fresh)])

theorem copyPayloads_lookupN (h : Heap) (acc : List (Nat × Nat)) (ps : List Nat) (x : Nat) :
    lookupN (copyPayloads h acc ps).1 x = lookupN h x := by
  unfold lookupN
  rw [copyPayloads_nodeH]

theorem copyPayloads_nodeLive (h : Heap) (acc : List (Nat × Nat)) (ps : List Nat) (x : Nat) :
    nodeLive (copyPayloads h acc ps).1 x ↔ nodeLive h x := by
  unfold nodeLive
  rw [copyPayloads_nodeH]

theorem copyPayloads_fresh_le (h : Heap) (acc : List (Nat × Nat)) (ps : List Nat) :
    h.fresh ≤ (copyPayloads h acc ps).1.fresh := by
  induction ps generalizing h acc with
  | nil => exact Nat.le_refl _
  | cons p rest ih =>
    rw [copyPayloads_cons]
    cases acc.find? (fun q : Nat × Nat => q.1 = p) with
    | some q => exact ih h acc
    | none =>
      have := ih (allocP h (lookupP h p)).1 (acc ++ [(p, h.fresh)])
      rw [allocP_fresh] at this
      show h.fresh ≤ (copyPayloads (allocP h (lookupP h p)).1 (acc ++ [(p, h.fresh)]) rest).1.fresh
      omega

theorem copyPayloads_lookupP_old (h : Heap) (acc : List (Nat × Nat)) (ps : List Nat)
    (x : Nat) (hx : x < h.fresh) :
    lookupP (copyPayloads h acc ps).1 x = lookupP h x := by
  induction ps generalizing h acc with
  | nil => rfl
  | cons p rest ih =>
    rw [copyPayloads_cons]
    cases acc.find? (fun q : Nat × Nat => q.1 = p) with
    | some q => exact ih h acc hx
    | none =>
      rw [ih (allocP h (lookupP h p)).1 (acc ++ [(p, h.fresh)])
        (by rw [allocP_fresh]; omega)]
      exact lookupP_allocP_old h _ x (by omega)

theorem copyPayloads_extends (h : Heap) (acc : List (Nat × Nat)) (ps : List Nat) :
    ∀ q ∈ acc, q ∈ (copyPayloads h acc ps).2 := by
  induction ps generalizing h acc with
  | nil => intro q hq; exact hq
  | cons p rest ih =>
    intro q hq
    rw [copyPayloads_cons]
    cases acc.find? (fun q : Nat × Nat => q.1 = p) with
    | some q2 => exact ih h acc q hq
    | none =>
      exact ih (allocP h (lookupP h p)).1 (acc ++ [(p, h.fresh)]) q
        (List.mem_append_left _ hq)

theorem copyPayloads_dom (h : Heap) (acc : List (Nat × Nat)) (ps : List Nat) :
    ∀ p ∈ ps, ∃ v, (p, v) ∈ (copyPayloads h acc ps).2 := by
  induction ps generalizing h acc with
  | nil => intro p hp; simp at hp
  | cons p0 rest ih =>
    intro p hp
    rw [copyPayloads_cons]
    rcases List.mem_cons.mp hp with hp | hp
    · subst hp
      cases hfind : acc.find? (fun q : Nat × Nat => q.1 = p) with
      | some q2 =>
        obtain ⟨q21, q22⟩ := q2
        have hq2 : q21 = p := by simpa using List.find?_some hfind
        subst hq2
        exact ⟨q22, copyPayloads_extends h acc rest _ (List.mem_of_find?_eq_some hfind)⟩
      | none =>
        exact ⟨h.fresh,
          copyPayloads_extends (allocP h (lookupP h p)).1 (acc ++ [(p, h.fresh)]) rest
            (p, h.fresh) (List.mem_append_right _ (by simp))⟩
    · cases acc.find? (fun q : Nat × Nat => q.1 = p0) with
      | some q2 => exact ih h acc p hp
      | none => exact ih (allocP h (lookupP h p0)).1 (acc ++ [(p0, h.fresh)]) p hp

theorem copyPayloads_facts (h : Heap) (acc : List (Nat × Nat)) (ps : List Nat)
    (hps : ∀ p ∈ ps, p < h.fresh) :
    ∀ q ∈ (copyPayloads h acc ps).2,
      q ∈ acc ∨
        (h.fresh ≤ q.2 ∧ q.2 < (copyPayloads h acc ps).1.fresh ∧
          lookupP (copyPayloads h acc ps).1 q.2 = lookupP h q.1 ∧ q.1 ∈ ps) := by
  induction ps generalizing h acc with
  | nil => intro q hq; exact Or.inl hq
  | cons p0 rest ih =>
    intro q hq
    rw [copyPayloads_cons] at hq ⊢
    cases hfind : acc.find? (fun q : Nat × Nat => q.1 = p0) with
    | some q2 =>
      rw [hfind] at hq
      rcases ih h acc (fun p hp => hps p (List.mem_cons_of_mem _ hp)) q hq with hc | hc
      · exact Or.inl hc
      · exact Or.inr ⟨hc.1, hc.2.1, hc.2.2.1, List.mem_cons_of_mem _ hc.2.2.2⟩
    | none =>
      rw [hfind] at hq
      have hps2 : ∀ p ∈ rest, p < (allocP h (lookupP h p0)).1.fresh := by
        intro p hp
        rw [allocP_fresh]
        have := hps p (List.mem_cons_of_mem _ hp)
        omega
      rcases ih (allocP h (lookupP h p0)).1 (acc ++ [(p0, h.fresh)]) hps2 q hq with hc | hc
      · rcases List.mem_append.mp hc with hc | hc
        · exact Or.inl hc
        · simp only [List.mem_singleton] at hc
          subst hc
          refine Or.inr ⟨Nat.le_refl _, ?_, ?_, by simp⟩
          · have := copyPayloads_fresh_le (allocP h (lookupP h p0)).1
              (acc ++ [(p0, h.fresh)]) rest
            rw [allocP_fresh] at this
            show h.fresh <
              (copyPayloads (allocP h (lookupP h p0)).1 (acc ++ [(p0, h.fresh)]) rest).1.fresh
            omega
          · show lookupP (copyPayloads (allocP h (lookupP h p0)).1
                (acc ++ [(p0, h.fresh)]) rest).1 h.fresh = lookupP h p0
            rw [copyPayloads_lookupP_old _ _ _ h.fresh (by rw [allocP_fresh]; omega)]
            exact lookupP_allocP_new h _
      · rcases hc with ⟨hc1, hc2, hc3, hc4⟩
        rw [allocP_fresh] at hc1
        refine Or.inr ⟨by omega, hc2, ?_, List.mem_cons_of_mem _ hc4⟩
        rw [hc3]
        exact lookupP_allocP_old h _ q.1
          (by have := hps q.1 (List.mem_cons_of_mem _ hc4); omega)

theorem copyPayloads_heapWF (h : Heap) (acc : List (Nat × Nat)) (ps : List Nat)
    (hwf : heapWF h) : heapWF (copyPayloads h acc ps).1 := by
  induction ps generalizing h acc with
  | nil => exact hwf
  | cons p rest ih =>
    rw [copyPayloads_cons]
    cases acc.find? (fun q : Nat × Nat => q.1 = p) with
    | some q => exact ih h acc hwf
    | none => exact ih (allocP h (lookupP h p)).1 _ (heapWF_allocP h _ hwf)

theorem mlook_mem_of_key (m : List (Nat × Nat)) (k : Nat)
    (hk : k ∈ m.map (fun q => q.1)) : (k, mlook m k) ∈ m := by
  unfold mlook
  cases hfind : m.find? (fun q => q.1 = k) with
  | none =>
    exfalso
    obtain ⟨q, hq, hqe⟩ := List.mem_map.mp hk
    have := List.find?_eq_none.mp hfind q hq
    simp [hqe] at this
  | some q0 =>
    have hmem := List.mem_of_find?_eq_some hfind
    have hkey : q0.1 = k := by simpa using List.find?_some hfind
    rw [← hkey]
    simpa using hmem

/-! ## `deepcopyGraph` lemmas -/

theorem deepcopy_heap_def (h : Heap) (S : Graph) :
    (deepcopyGraph h S).1 =
      (copyPayloads (copyNodes h S.nodes).1 [] (S.edges.map (fun e => e.2.2))).1 := rfl

theorem deepcopy_nm_def (h : Heap) (S : Graph) :
    (deepcopyGraph h S).2.2 = (copyNodes h S.nodes).2 := rfl

theorem deepcopy_nodes_def (h : Heap) (S : Graph) :
    (deepcopyGraph h S).2.1.nodes = (copyNodes h S.nodes).2.map (fun q => q.2) := rfl

theorem deepcopy_edges_def (h : Heap) (S : Graph) :
    (deepcopyGraph h S).2.1.edges =
      S.edges.map (fun e =>
        (mlook (copyNodes h S.nodes).2 e.1, mlook (copyNodes h S.nodes).2 e.2.1,
          mlook (copyPayloads (copyNodes h S.nodes).1 []
            (S.edges.map (fun e => e.2.2))).2 e.2.2)) := rfl

theorem deepcopy_nm_keys (h : Heap) (S : Graph) :
    (deepcopyGraph h S).2.2.map (fun q => q.1) = S.nodes := by
  rw [deepcopy_nm_def]; exact copyNodes_keys h S.nodes

theorem deepcopy_fresh_le (h : Heap) (S : Graph) :
    h.fresh ≤ (deepcopyGraph h S).1.fresh := by
  rw [deepcopy_heap_def]
  have h1 := copyPayloads_fresh_le (copyNodes h S.nodes).1 [] (S.edges.map (fun e => e.2.2))
  have h2 := copyNodes_fresh h S.nodes
  omega

theorem deepcopy_nm_range (h : Heap) (S : Graph) :
    ∀ q ∈ (deepcopyGraph h S).2.2,
      h.fresh ≤ q.2 ∧ q.2 < (deepcopyGraph h S).1.fresh := by
  intro q hq
  rw [deepcopy_nm_def] at hq
  have := copyNodes_range h S.nodes q hq
  have h1 := copyPayloads_fresh_le (copyNodes h S.nodes).1 [] (S.edges.map (fun e => e.2.2))
  rw [deepcopy_heap_def]
  omega

theorem deepcopy_lookupN_old (h : Heap) (S : Graph) (x : Nat) (hx : x < h.fresh) :
    lookupN (deepcopyGraph h S).1 x = lookupN h x := by
  rw [deepcopy_heap_def, copyPayloads_lookupN]
  exact copyNodes_lookup_old h S.nodes x hx

theorem deepcopy_lookupP_old (h : Heap) (S : Graph) (x : Nat) (hx : x < h.fresh) :
    lookupP (deepcopyGraph h S).1 x = lookupP h x := by
  rw [deepcopy_heap_def,
    copyPayloads_lookupP_old _ _ _ x (by rw [copyNodes_fresh]; omega)]
  exact copyNodes_lookupP h S.nodes x

theorem deepcopy_lookup_new (h : Heap) (S : Graph) (hS : ∀ r ∈ S.nodes, r < h.fresh) :
    ∀ q ∈ (deepcopyGraph h S).2.2, lookupN (deepcopyGraph h S).1 q.2 = lookupN h q.1 := by
  intro q hq
  rw [deepcopy_nm_def] at hq
  rw [deepcopy_heap_def, copyPayloads_lookupN]
  exact copyNodes_lookup_new h S.nodes hS q hq

theorem deepcopy_nodes_nodup (h : Heap) (S : Graph) :
    (deepcopyGraph h S).2.1.nodes.Nodup := by
  rw [deepcopy_nodes_def]
  exact copyNodes_vals_nodup h S.nodes

theorem deepcopy_live_new (h : Heap) (S : Graph) :
    ∀ q ∈ (deepcopyGraph h S).2.2, nodeLive (deepcopyGraph h S).1 q.2 := by
  intro q hq
  rw [deepcopy_nm_def] at hq
  rw [deepcopy_heap_def]
  rw [copyPayloads_nodeLive]
  exact copyNodes_live_new h S.nodes q hq

theorem deepcopy_live_old (h : Heap) (S : Graph) (x : Nat) (hx : nodeLive h x) :
    nodeLive (deepcopyGraph h S).1 x := by
  rw [deepcopy_heap_def, copyPayloads_nodeLive]
  exact copyNodes_live_old h S.nodes x hx

theorem deepcopy_heapWF (h : Heap) (S : Graph) (hwf : heapWF h) :
    heapWF (deepcopyGraph h S).1 := by
  rw [deepcopy_heap_def]
  exact copyPayloads_heapWF _ _ _ (copyNodes_heapWF h S.nodes hwf)

theorem deepcopy_edges (h : Heap) (S : Graph)
    (hSep : ∀ e ∈ S.edges, e.1 ∈ S.nodes ∧ e.2.1 ∈ S.nodes)
    (hSp : ∀ e ∈ S.edges, e.2.2 < h.fresh) :
    ∀ e' ∈ (deepcopyGraph h S).2.1.edges,
      ∃ e ∈ S.edges,
        (e.1, e'.1) ∈ (deepcopyGraph h S).2.2 ∧
        (e.2.1, e'.2.1) ∈ (deepcopyGraph h S).2.2 ∧
        h.fresh ≤ e'.2.2 ∧ e'.2.2 < (deepcopyGraph h S).1.fresh ∧
        lookupP (deepcopyGraph h S).1 e'.2.2 = lookupP h e.2.2 := by
  intro e' he'
  rw [deepcopy_edges_def] at he'
  obtain ⟨e, he, hee⟩ := List.mem_map.mp he'
  refine ⟨e, he, ?_, ?_, ?_, ?_, ?_⟩
  · rw [deepcopy_nm_def, ← hee]
    exact mlook_mem_of_key _ _ (by rw [copyNodes_keys]; exact (hSep e he).1)
  · rw [deepcopy_nm_def, ← hee]
    exact mlook_mem_of_key _ _ (by rw [copyNodes_keys]; exact (hSep e he).2)
  · rw [← hee]
    obtain ⟨v, hv⟩ := copyPayloads_dom (copyNodes h S.nodes).1 []
      (S.edges.map (fun e => e.2.2)) e.2.2 (List.mem_map_of_mem _ he)
    have hkey : e.2.2 ∈ ((copyPayloads (copyNodes h S.nodes).1 []
        (S.edges.map (fun e => e.2.2))).2.map (fun q => q.1)) :=
      List.mem_map.mpr ⟨(e.2.2, v), hv, rfl⟩
    have hmem := mlook_mem_of_key _ _ hkey
    have hfacts := copyPayloads_facts (copyNodes h S.nodes).1 []
      (S.edges.map (fun e => e.2.2))
      (by intro p hp
          obtain ⟨e0, he0, he0e⟩ := List.mem_map.mp hp
          have := hSp e0 he0
          rw [copyNodes_fresh]
          omega)
      _ hmem
    rcases hfacts with hc | hc
    · simp at hc
    · have := copyNodes_fresh h S.nodes
      show h.fresh ≤ mlook _ e.2.2
      omega
  · rw [← hee]
    obtain ⟨v, hv⟩ := copyPayloads_dom (copyNodes h S.nodes).1 []
      (S.edges.map (fun e => e.2.2)) e.2.2 (List.mem_map_of_mem _ he)
    have hkey : e.2.2 ∈ ((copyPayloads (copyNodes h S.nodes).1 []
        (S.edges.map (fun e => e.2.2))).2.map (fun q => q.1)) :=
      List.mem_map.mpr ⟨(e.2.2, v), hv, rfl⟩
    have hmem := mlook_mem_of_key _ _ hkey
    have hfacts := copyPayloads_facts (copyNodes h S.nodes).1 []
      (S.edges.map (fun e => e.2.2))
      (by intro p hp
          obtain ⟨e0, he0, he0e⟩ := List.mem_map.mp hp
          have := hSp e0 he0
          rw [copyNodes_fresh]
          omega)
      _ hmem
    rcases hfacts with hc | hc
    · simp at hc
    · rw [deepcopy_heap_def]
      exact hc.2.1
  · rw [← hee]
    obtain ⟨v, hv⟩ := copyPayloads_dom (copyNodes h S.nodes).1 []
      (S.edges.map (fun e => e.2.2)) e.2.2 (List.mem_map_of_mem _ he)
    have hkey : e.2.2 ∈ ((copyPayloads (copyNodes h S.nodes).1 []
        (S.edges.map (fun e => e.2.2))).2.map (fun q => q.1)) :=
      List.mem_map.mpr ⟨(e.2.2, v), hv, rfl⟩
    have hmem := mlook_mem_of_key _ _ hkey
    have hfacts := copyPayloads_facts (copyNodes h S.nodes).1 []
      (S.edges.map (fun e => e.2.2))
      (by intro p hp
          obtain ⟨e0, he0, he0e⟩ := List.mem_map.mp hp
          have := hSp e0 he0
          rw [copyNodes_fresh]
          omega)
      _ hmem
    rcases hfacts with hc | hc
    · simp at hc
    · rw [deepcopy_heap_def]
      show lookupP _ (mlook _ e.2.2) = lookupP h e.2.2
      rw [hc.2.2.1]
      exact copyNodes_lookupP h S.nodes e.2.2

/-! ## `applyParams` lemmas -/

theorem foldl_setN_inputs_field {α : Type} (d : Nat) (l : List (Str × Val)) (h : Heap)
    (x : Nat) (φ : NodeData → α)
    (hφ : ∀ nd i, φ { nd with inputs := i } = φ nd) :
    φ (lookupN (l.foldl (fun h kv =>
        setN h d (fun nd => { nd with inputs := updAssoc nd.inputs kv.1 kv.2 })) h) x) =
      φ (lookupN h x) := by
  induction l generalizing h with
  | nil => rfl
  | cons kv rest ih =>
    rw [List.foldl_cons, ih]
    exact lookupN_setN_field h d _ x φ (fun nd => hφ nd _)

theorem applyParams_nid (h : Heap) (d : Nat) (params : List (Str × Val)) (x : Nat) :
    (lookupN (applyParams h d params) x).nid = (lookupN h x).nid :=
  foldl_setN_inputs_field d _ h x NodeData.nid (fun _ _ => rfl)

theorem applyParams_iterables (h : Heap) (d : Nat) (params : List (Str × Val)) (x : Nat) :
    (lookupN (applyParams h d params) x).iterables = (lookupN h x).iterables :=
  foldl_setN_inputs_field d _ h x NodeData.iterables (fun _ _ => rfl)

theorem applyParams_parameterization (h : Heap) (d : Nat) (params : List (Str × Val))
    (x : Nat) :
    (lookupN (applyParams h d params) x).parameterization =
      (lookupN h x).parameterization :=
  foldl_setN_inputs_field d _ h x NodeData.parameterization (fun _ _ => rfl)

theorem foldl_setN_frames (d : Nat) (l : List (Str × Val)) (h : Heap) :
    (l.foldl (fun h kv =>
        setN h d (fun nd => { nd with inputs := updAssoc nd.inputs kv.1 kv.2 })) h).fresh =
        h.fresh ∧
      (l.foldl (fun h kv =>
        setN h d (fun nd => { nd with inputs := updAssoc nd.inputs kv.1 kv.2 })) h).payloadH =
        h.payloadH := by
  induction l generalizing h with
  | nil => exact ⟨rfl, rfl⟩
  | cons kv rest ih =>
    rw [List.foldl_cons]
    exact (ih _)

theorem applyParams_fresh (h : Heap) (d : Nat) (params : List (Str × Val)) :
    (applyParams h d params).fresh = h.fresh :=
  (foldl_setN_frames d _ h).1

theorem applyParams_payloadH (h : Heap) (d : Nat) (params : List (Str × Val)) :
    (applyParams h d params).payloadH = h.payloadH :=
  (foldl_setN_frames d _ h).2

theorem applyParams_lookupP (h : Heap) (d : Nat) (params : List (Str × Val)) (x : Nat) :
    lookupP (applyParams h d params) x = lookupP h x := by
  unfold lookupP
  rw [applyParams_payloadH]

theorem foldl_setN_lookup_ne (d : Nat) (l : List (Str × Val)) (h : Heap) (x : Nat)
    (hx : x ≠ d) :
    lookupN (l.foldl (fun h kv =>
        setN h d (fun nd => { nd with inputs := updAssoc nd.inputs kv.1 kv.2 })) h) x =
      lookupN h x := by
  induction l generalizing h with
  | nil => rfl
  | cons kv rest ih =>
    rw [List.foldl_cons, ih]
    exact lookupN_setN_ne h d _ x hx

theorem applyParams_lookup_ne (h : Heap) (d : Nat) (params : List (Str × Val)) (x : Nat)
    (hx : x ≠ d) : lookupN (applyParams h d params) x = lookupN h x :=
  foldl_setN_lookup_ne d _ h x hx

theorem foldl_setN_live (d : Nat) (l : List (Str × Val)) (h : Heap) (x : Nat) :
    nodeLive (l.foldl (fun h kv =>
        setN h d (fun nd => { nd with inputs := updAssoc nd.inputs kv.1 kv.2 })) h) x ↔
      nodeLive h x := by
  induction l generalizing h with
  | nil => exact Iff.rfl
  | cons kv rest ih =>
    rw [List.foldl_cons, ih]
    exact nodeLive_setN h d _ x

theorem applyParams_live (h : Heap) (d : Nat) (params : List (Str × Val)) (x : Nat) :
    nodeLive (applyParams h d params) x ↔ nodeLive h x :=
  foldl_setN_live d _ h x

theorem foldl_setN_heapWF (d : Nat) (l : List (Str × Val)) (h : Heap) (hwf : heapWF h) :
    heapWF (l.foldl (fun h kv =>
      setN h d (fun nd => { nd with inputs := updAssoc nd.inputs kv.1 kv.2 })) h) := by
  induction l generalizing h with
  | nil => exact hwf
  | cons kv rest ih =>
    rw [List.foldl_cons]
    exact ih _ (heapWF_setN h d _ hwf)

theorem applyParams_heapWF (h : Heap) (d : Nat) (params : List (Str × Val))
    (hwf : heapWF h) : heapWF (applyParams h d params) :=
  foldl_setN_heapWF d _ h hwf

/-! ## `prependParamAll` lemmas -/

theorem prependParamAll_cons (h : Heap) (seg : Str) (r : Nat) (rest : List Nat) :
    prependParamAll h seg (r :: rest) =
      prependParamAll
        (setN h r (fun nd => { nd with parameterization := seg :: nd.parameterization }))
        seg rest := rfl

theorem prependParamAll_lookup_notMem (h : Heap) (seg : Str) (ns : List Nat) (x : Nat)
    (hx : x ∉ ns) : lookupN (prependParamAll h seg ns) x = lookupN h x := by
  induction ns generalizing h with
  | nil => rfl
  | cons r rest ih =>
    rw [prependParamAll_cons, ih _ (fun hc => hx (List.mem_cons_of_mem _ hc))]
    exact lookupN_setN_ne h r _ x (fun hc => hx (hc ▸ List.mem_cons_self r rest))

theorem prependParamAll_fresh (h : Heap) (seg : Str) (ns : List Nat) :
    (prependParamAll h seg ns).fresh = h.fresh := by
  induction ns generalizing h with
  | nil => rfl
  | cons r rest ih => rw [prependParamAll_cons, ih]; rfl

theorem prependParamAll_payloadH (h : Heap) (seg : Str) (ns : List Nat) :
    (prependParamAll h seg ns).payloadH = h.payloadH := by
  induction ns generalizing h with
  | nil => rfl
  | cons r rest ih => rw [prependParamAll_cons, ih]; rfl

theorem prependParamAll_lookupP (h : Heap) (seg : Str) (ns : List Nat) (x : Nat) :
    lookupP (prependParamAll h seg ns) x = lookupP h x := by
  unfold lookupP
  rw [prependParamAll_payloadH]

theorem prependParamAll_live (h : Heap) (seg : Str) (ns : List Nat) (x : Nat) :
    nodeLive (prependParamAll h seg ns) x ↔ nodeLive h x := by
  induction ns generalizing h with
  | nil => exact Iff.rfl
  | cons r rest ih =>
    rw [prependParamAll_cons, ih]
    exact nodeLive_setN h r _ x

theorem prependParamAll_heapWF (h : Heap) (seg : Str) (ns : List Nat) (hwf : heapWF h) :
    heapWF (prependParamAll h seg ns) := by
  induction ns generalizing h with
  | nil => exact hwf
  | cons r rest ih =>
    rw [prependParamAll_cons]
    exact ih _ (heapWF_setN h r _ hwf)

theorem prependParamAll_lookup_mem (h : Heap) (seg : Str) (ns : List Nat)
    (hnd : ns.Nodup) (hlive : ∀ r ∈ ns, nodeLive h r) :
    ∀ r ∈ ns,
      lookupN (prependParamAll h seg ns) r =
        { lookupN h r with
            parameterization := seg :: (lookupN h r).parameterization } := by
  induction ns generalizing h with
  | nil => intro r hr; simp at hr
  | cons r0 rest ih =>
    intro r hr
    rw [prependParamAll_cons]
    rcases List.mem_cons.mp hr with hr | hr
    · subst hr
      rw [prependParamAll_lookup_notMem _ _ _ _ ((List.nodup_cons.mp hnd).1)]
      exact lookupN_setN_same h r _ (hlive r (List.mem_cons_self _ _))
    · have hne : r ≠ r0 := fun he => (List.nodup_cons.mp hnd).1 (he ▸ hr)
      rw [ih _ (List.nodup_cons.mp hnd).2
        (fun x hx => (nodeLive_setN h r0 _ x).mpr (hlive x (List.mem_cons_of_mem _ hx)))
        r hr]
      rw [lookupN_setN_ne h r0 _ r hne]

/-! ## `reconnectAndSuffix` lemmas -/

theorem reconnectAndSuffix_cons (i : Nat) (einfo : List (Str × Nat × Nat)) (h : Heap)
    (G : Graph) (r : Nat) (rs : List Nat) :
    reconnectAndSuffix i einfo h G (r :: rs) =
      reconnectAndSuffix i einfo
        (setN h r (fun nd => { nd with nid := nd.nid ++ Nat.toDigits 10 i }))
        (Graph.mk G.nodes (G.edges ++
            (einfo.filter (fun t => t.1 = (lookupN h r).nid)).map
              (fun t => (t.2.1, r, t.2.2))))
        rs := rfl

theorem reconnectAndSuffix_nodes (i : Nat) (einfo : List (Str × Nat × Nat)) (h : Heap)
    (G : Graph) (rs : List Nat) :
    (reconnectAndSuffix i einfo h G rs).2.nodes = G.nodes := by
  induction rs generalizing h G with
  | nil => rfl
  | cons r rest ih => rw [reconnectAndSuffix_cons, ih]

theorem reconnectAndSuffix_fresh (i : Nat) (einfo : List (Str × Nat × Nat)) (h : Heap)
    (G : Graph) (rs : List Nat) :
    (reconnectAndSuffix i einfo h G rs).1.fresh = h.fresh := by
  induction rs generalizing h G with
  | nil => rfl
  | cons r rest ih => rw [reconnectAndSuffix_cons, ih]; rfl

theorem reconnectAndSuffix_payloadH (i : Nat) (einfo : List (Str × Nat × Nat)) (h : Heap)
    (G : Graph) (rs : List Nat) :
    (reconnectAndSuffix i einfo h G rs).1.payloadH = h.payloadH := by
  induction rs generalizing h G with
  | nil => rfl
  | cons r rest ih => rw [reconnectAndSuffix_cons, ih]; rfl

theorem reconnectAndSuffix_lookupP (i : Nat) (einfo : List (Str × Nat × Nat)) (h : Heap)
    (G : Graph) (rs : List Nat) (x : Nat) :
    lookupP (reconnectAndSuffix i einfo h G rs).1 x = lookupP h x := by
  unfold lookupP
  rw [reconnectAndSuffix_payloadH]

theorem reconnectAndSuffix_live (i : Nat) (einfo : List (Str × Nat × Nat)) (h : Heap)
    (G : Graph) (rs : List Nat) (x : Nat) :
    nodeLive (reconnectAndSuffix i einfo h G rs).1 x ↔ nodeLive h x := by
  induction rs generalizing h G with
  | nil => exact Iff.rfl
  | cons r rest ih =>
    rw [reconnectAndSuffix_cons, ih]
    exact nodeLive_setN h r _ x

theorem reconnectAndSuffix_heapWF (i : Nat) (einfo : List (Str × Nat × Nat)) (h : Heap)
    (G : Graph) (rs : List Nat) (hwf : heapWF h) :
    heapWF (reconnectAndSuffix i einfo h G rs).1 := by
  induction rs generalizing h G with
  | nil => exact hwf
  | cons r rest ih =>
    rw [reconnectAndSuffix_cons]
    exact ih _ _ (heapWF_setN h r _ hwf)

theorem reconnectAndSuffix_lookup_notMem (i : Nat) (einfo : List (Str × Nat × Nat))
    (h : Heap) (G : Graph) (rs : List Nat) (x : Nat) (hx : x ∉ rs) :
    lookupN (reconnectAndSuffix i einfo h G rs).1 x = lookupN h x := by
  induction rs generalizing h G with
  | nil => rfl
  | cons r rest ih =>
    rw [reconnectAndSuffix_cons, ih _ _ (fun hc => hx (List.mem_cons_of_mem _ hc))]
    exact lookupN_setN_ne h r _ x (fun hc => hx (hc ▸ List.mem_cons_self r rest))

theorem reconnectAndSuffix_lookup_mem (i : Nat) (einfo : List (Str × Nat × Nat))
    (h : Heap) (G : Graph) (rs : List Nat) (hnd : rs.Nodup)
    (hlive : ∀ r ∈ rs, nodeLive h r) :
    ∀ r ∈ rs,
      lookupN (reconnectAndSuffix i einfo h G rs).1 r =
        { lookupN h r with nid := (lookupN h r).nid ++ Nat.toDigits 10 i } := by
  induction rs generalizing h G with
  | nil => intro r hr; simp at hr
  | cons r0 rest ih =>
    intro r hr
    rw [reconnectAndSuffix_cons]
    rcases List.mem_cons.mp hr with hr | hr
    · subst hr
      rw [reconnectAndSuffix_lookup_notMem _ _ _ _ _ _ ((List.nodup_cons.mp hnd).1)]
      exact lookupN_setN_same h r _ (hlive r (List.mem_cons_self _ _))
    · have hne : r ≠ r0 := fun he => (List.nodup_cons.mp hnd).1 (he ▸ hr)
      rw [ih _ _ (List.nodup_cons.mp hnd).2
        (fun x hx => (nodeLive_setN h r0 _ x).mpr (hlive x (List.mem_cons_of_mem _ hx)))
        r hr]
      rw [lookupN_setN_ne h r0 _ r hne]

theorem reconnectAndSuffix_edges (i : Nat) (einfo : List (Str × Nat × Nat)) (h : Heap)
    (G : Graph) (rs : List Nat) :
    ∃ added, (reconnectAndSuffix i einfo h G rs).2.edges = G.edges ++ added ∧
      ∀ a ∈ added, ∃ t ∈ einfo, ∃ r ∈ rs, a = (t.2.1, r, t.2.2) := by
  induction rs generalizing h G with
  | nil => exact ⟨[], by simp [reconnectAndSuffix], by simp⟩
  | cons r0 rest ih =>
    rw [reconnectAndSuffix_cons]
    obtain ⟨added, hadd, hfacts⟩ := ih
      (setN h r0 (fun nd => { nd with nid := nd.nid ++ Nat.toDigits 10 i }))
      (Graph.mk G.nodes (G.edges ++
          (einfo.filter (fun t => t.1 = (lookupN h r0).nid)).map
            (fun t => (t.2.1, r0, t.2.2))))
    refine ⟨(einfo.filter (fun t => t.1 = (lookupN h r0).nid)).map
        (fun t => (t.2.1, r0, t.2.2)) ++ added, ?_, ?_⟩
    · rw [hadd]
      simp
    · intro a ha
      rcases List.mem_append.mp ha with ha | ha
      · obtain ⟨t, ht, hte⟩ := List.mem_map.mp ha
        exact ⟨t, List.mem_of_mem_filter ht, r0, List.mem_cons_self _ _, hte.symm⟩
      · obtain ⟨t, ht, r, hr, he⟩ := hfacts a ha
        exact ⟨t, ht, r, List.mem_cons_of_mem _ hr, he⟩

/-! ## `mergeCopy` master lemma -/

theorem mergeCopy_def (S : Graph) (nodeid : Str) (einfo : List (Str × Nat × Nat))
    (h : Heap) (G : Graph) (i : Nat) (params : List (Str × Val)) :
    mergeCopy S nodeid einfo h G i params =
      match (deepcopyGraph h S).2.1.nodes.find?
          (fun r => (lookupN (deepcopyGraph h S).1 r).nid = nodeid) with
      | none => none
      | some d =>
        some ((reconnectAndSuffix i einfo
            (prependParamAll (applyParams (deepcopyGraph h S).1 d params)
              (paramStrOf params) (deepcopyGraph h S).2.1.nodes)
            (Graph.mk (G.nodes ++ (deepcopyGraph h S).2.1.nodes)
              (G.edges ++ (deepcopyGraph h S).2.1.edges))
            (deepcopyGraph h S).2.1.nodes).1,
          (reconnectAndSuffix i einfo
            (prependParamAll (applyParams (deepcopyGraph h S).1 d params)
              (paramStrOf params) (deepcopyGraph h S).2.1.nodes)
            (Graph.mk (G.nodes ++ (deepcopyGraph h S).2.1.nodes)
              (G.edges ++ (deepcopyGraph h S).2.1.edges))
            (deepcopyGraph h S).2.1.nodes).2,
          CopyInfo.mk i params (deepcopyGraph h S).2.2) := rfl

/-- All facts a single duplication pass establishes, relating the
post-state `(h', G', ci)` to the pre-state `(h, G)`. -/
def MergeCopyFacts (S : Graph) (einfo : List (Str × Nat × Nat)) (h : Heap) (G : Graph)
    (h' : Heap) (G' : Graph) (ci : CopyInfo) : Prop :=
  ci.nmap.map (fun q => q.1) = S.nodes ∧
  (ci.nmap.map (fun q => q.2)).Nodup ∧
  G'.nodes = G.nodes ++ ci.nmap.map (fun q => q.2) ∧
  (∀ e ∈ G'.edges, e ∈ G.edges ∨
    (∃ e0 ∈ S.edges, (e0.1, e.1) ∈ ci.nmap ∧ (e0.2.1, e.2.1) ∈ ci.nmap ∧
      h.fresh ≤ e.2.2 ∧ e.2.2 < h'.fresh ∧ lookupP h' e.2.2 = lookupP h e0.2.2) ∨
    (∃ t ∈ einfo, e.1 = t.2.1 ∧ e.2.2 = t.2.2 ∧ ∃ o, (o, e.2.1) ∈ ci.nmap)) ∧
  (∀ q ∈ ci.nmap, h.fresh ≤ q.2 ∧ q.2 < h'.fresh ∧
    (lookupN h' q.2).nid = (lookupN h q.1).nid ++ Nat.toDigits 10 ci.idx ∧
    (lookupN h' q.2).iterables = (lookupN h q.1).iterables ∧
    (lookupN h' q.2).parameterization =
      paramStrOf ci.params :: (lookupN h q.1).parameterization ∧
    nodeLive h' q.2) ∧
  h.fresh ≤ h'.fresh ∧
  (∀ x, x < h.fresh → lookupN h' x = lookupN h x) ∧
  (∀ x, x < h.fresh → lookupP h' x = lookupP h x) ∧
  (∀ x, nodeLive h x → nodeLive h' x) ∧
  heapWF h'

theorem mergeCopy_facts (S : Graph) (nodeid : Str) (einfo : List (Str × Nat × Nat))
    (h : Heap) (G : Graph) (i : Nat) (params : List (Str × Val))
    (h' : Heap) (G' : Graph) (ci : CopyInfo)
    (hhw : heapWF h)
    (_hSnd : S.nodes.Nodup)
    (hSlt : ∀ r ∈ S.nodes, r < h.fresh)
    (hSep : ∀ e ∈ S.edges, e.1 ∈ S.nodes ∧ e.2.1 ∈ S.nodes)
    (hSpl : ∀ e ∈ S.edges, e.2.2 < h.fresh)
    (hsucc : mergeCopy S nodeid einfo h G i params = some (h', G', ci)) :
    ci.idx = i ∧ ci.params = params ∧ MergeCopyFacts S einfo h G h' G' ci := by
  rw [mergeCopy_def] at hsucc
  cases hfind : (deepcopyGraph h S).2.1.nodes.find?
      (fun r => (lookupN (deepcopyGraph h S).1 r).nid = nodeid) with
  | none =>
    rw [hfind] at hsucc
    exact absurd hsucc (by simp)
  | some d =>
    rw [hfind] at hsucc
    simp only [Option.some.injEq, Prod.mk.injEq] at hsucc
    obtain ⟨hh', hG', hci⟩ := hsucc
    subst hh'
    subst hG'
    subst hci
    have hGcN : (deepcopyGraph h S).2.1.nodes =
        (deepcopyGraph h S).2.2.map (fun q => q.2) := rfl
    have hGcnd : (deepcopyGraph h S).2.1.nodes.Nodup := deepcopy_nodes_nodup h S
    have hGclive : ∀ r ∈ (deepcopyGraph h S).2.1.nodes,
        nodeLive (deepcopyGraph h S).1 r := by
      intro r hr
      rw [hGcN] at hr
      obtain ⟨q, hq, hqe⟩ := List.mem_map.mp hr
      exact hqe ▸ deepcopy_live_new h S q hq
    have hGcge : ∀ r ∈ (deepcopyGraph h S).2.1.nodes, h.fresh ≤ r := by
      intro r hr
      rw [hGcN] at hr
      obtain ⟨q, hq, hqe⟩ := List.mem_map.mp hr
      exact hqe ▸ (deepcopy_nm_range h S q hq).1
    have hlive3 : ∀ r ∈ (deepcopyGraph h S).2.1.nodes,
        nodeLive (prependParamAll (applyParams (deepcopyGraph h S).1 d params)
          (paramStrOf params) (deepcopyGraph h S).2.1.nodes) r := by
      intro r hr
      rw [prependParamAll_live, applyParams_live]
      exact hGclive r hr
    refine ⟨rfl, rfl, deepcopy_nm_keys h S, ?_, ?_, ?_, ?_, ?_, ?_, ?_, ?_, ?_⟩
    · rw [← hGcN]
      exact hGcnd
    · rw [reconnectAndSuffix_nodes]
      rw [← hGcN]
    · -- edge classification
      intro e he
      obtain ⟨added, hadd, haddf⟩ := reconnectAndSuffix_edges i einfo
        (prependParamAll (applyParams (deepcopyGraph h S).1 d params)
          (paramStrOf params) (deepcopyGraph h S).2.1.nodes)
        (Graph.mk (G.nodes ++ (deepcopyGraph h S).2.1.nodes)
          (G.edges ++ (deepcopyGraph h S).2.1.edges))
        (deepcopyGraph h S).2.1.nodes
      rw [hadd] at he
      have hfr : (reconnectAndSuffix i einfo
          (prependParamAll (applyParams (deepcopyGraph h S).1 d params)
            (paramStrOf params) (deepcopyGraph h S).2.1.nodes)
          (Graph.mk (G.nodes ++ (deepcopyGraph h S).2.1.nodes)
            (G.edges ++ (deepcopyGraph h S).2.1.edges))
          (deepcopyGraph h S).2.1.nodes).1.fresh = (deepcopyGraph h S).1.fresh := by
        rw [reconnectAndSuffix_fresh, prependParamAll_fresh, applyParams_fresh]
      rcases List.mem_append.mp he with he | he
      · rcases List.mem_append.mp he with he | he
        · exact Or.inl he
        · -- copied internal edge
          obtain ⟨e0, he0, hm1, hm2, hge, hlt, hpl⟩ := deepcopy_edges h S hSep hSpl e he
          refine Or.inr (Or.inl ⟨e0, he0, hm1, hm2, hge, ?_, ?_⟩)
          · rw [hfr]
            exact hlt
          · rw [reconnectAndSuffix_lookupP, prependParamAll_lookupP, applyParams_lookupP]
            exact hpl
      · -- reconnected external edge
        obtain ⟨t, ht, r, hr, hre⟩ := haddf e he
        subst hre
        refine Or.inr (Or.inr ⟨t, ht, rfl, rfl, ?_⟩)
        rw [hGcN] at hr
        obtain ⟨q, hq, hqe⟩ := List.mem_map.mp hr
        exact ⟨q.1, by rw [← hqe]; exact hq⟩
    · -- per-copy node facts
      intro q hq
      have hn : q.2 ∈ (deepcopyGraph h S).2.1.nodes := by
        rw [hGcN]
        exact List.mem_map_of_mem _ hq
      have hrange := deepcopy_nm_range h S q hq
      have hfr : (reconnectAndSuffix i einfo
          (prependParamAll (applyParams (deepcopyGraph h S).1 d params)
            (paramStrOf params) (deepcopyGraph h S).2.1.nodes)
          (Graph.mk (G.nodes ++ (deepcopyGraph h S).2.1.nodes)
            (G.edges ++ (deepcopyGraph h S).2.1.edges))
          (deepcopyGraph h S).2.1.nodes).1.fresh = (deepcopyGraph h S).1.fresh := by
        rw [reconnectAndSuffix_fresh, prependParamAll_fresh, applyParams_fresh]
      have hrs := reconnectAndSuffix_lookup_mem i einfo
        (prependParamAll (applyParams (deepcopyGraph h S).1 d params)
          (paramStrOf params) (deepcopyGraph h S).2.1.nodes)
        (Graph.mk (G.nodes ++ (deepcopyGraph h S).2.1.nodes)
          (G.edges ++ (deepcopyGraph h S).2.1.edges))
        (deepcopyGraph h S).2.1.nodes hGcnd hlive3 q.2 hn
      have hpp := prependParamAll_lookup_mem (applyParams (deepcopyGraph h S).1 d params)
        (paramStrOf params) (deepcopyGraph h S).2.1.nodes hGcnd
        (fun r hr => (applyParams_live _ _ _ r).mpr (hGclive r hr)) q.2 hn
      have hdc := deepcopy_lookup_new h S hSlt q hq
      refine ⟨hrange.1, ?_, ?_, ?_, ?_, ?_⟩
      · rw [hfr]
        exact hrange.2
      · rw [hrs]
        show (lookupN (prependParamAll (applyParams (deepcopyGraph h S).1 d params)
            (paramStrOf params) (deepcopyGraph h S).2.1.nodes) q.2).nid ++ _ = _
        rw [hpp]
        show (lookupN (applyParams (deepcopyGraph h S).1 d params) q.2).nid ++ _ = _
        rw [applyParams_nid, hdc]
      · rw [hrs]
        show (lookupN (prependParamAll (applyParams (deepcopyGraph h S).1 d params)
            (paramStrOf params) (deepcopyGraph h S).2.1.nodes) q.2).iterables = _
        rw [hpp]
        show (lookupN (applyParams (deepcopyGraph h S).1 d params) q.2).iterables = _
        rw [applyParams_iterables, hdc]
      · rw [hrs]
        show (lookupN (prependParamAll (applyParams (deepcopyGraph h S).1 d params)
            (paramStrOf params) (deepcopyGraph h S).2.1.nodes) q.2).parameterization = _
        rw [hpp]
        show paramStrOf params ::
          (lookupN (applyParams (deepcopyGraph h S).1 d params) q.2).parameterization = _
        rw [applyParams_parameterization, hdc]
      · rw [reconnectAndSuffix_live, prependParamAll_live, applyParams_live]
        exact hGclive q.2 hn
    · rw [reconnectAndSuffix_fresh, prependParamAll_fresh, applyParams_fresh]
      exact deepcopy_fresh_le h S
    · intro x hx
      have hxGc : x ∉ (deepcopyGraph h S).2.1.nodes := by
        intro hc
        have := hGcge x hc
        omega
      have hxd : x ≠ d := by
        intro hc
        subst hc
        exact hxGc (List.mem_of_find?_eq_some hfind)
      rw [reconnectAndSuffix_lookup_notMem _ _ _ _ _ _ hxGc,
        prependParamAll_lookup_notMem _ _ _ _ hxGc,
        applyParams_lookup_ne _ _ _ _ hxd]
      exact deepcopy_lookupN_old h S x hx
    · intro x hx
      rw [reconnectAndSuffix_lookupP, prependParamAll_lookupP, applyParams_lookupP]
      exact deepcopy_lookupP_old h S x hx
    · intro x hx
      rw [reconnectAndSuffix_live, prependParamAll_live, applyParams_live]
      exact deepcopy_live_old h S x hx
    · exact reconnectAndSuffix_heapWF _ _ _ _ _
        (prependParamAll_heapWF _ _ _
          (applyParams_heapWF _ _ _ (deepcopy_heapWF h S hhw)))

/-! ## `mergeLoop` aggregation -/

theorem mergeLoop_cons (S : Graph) (nodeid : Str) (einfo : List (Str × Nat × Nat))
    (ps : List (Str × Val)) (rest : List (List (Str × Val))) (i : Nat) (h : Heap)
    (G : Graph) (infos : List CopyInfo) :
    mergeLoop S nodeid einfo (ps :: rest) i h G infos =
      match mergeCopy S nodeid einfo h G i ps with
      | none => none
      | some r => mergeLoop S nodeid einfo rest (i + 1) r.1 r.2.1 (infos ++ [r.2.2]) := rfl

/-- All facts the whole duplication loop establishes, relating the post-state
to the loop-entry state, for the freshly appended `CopyInfo` records. -/
def MergeLoopFacts (S : Graph) (einfo : List (Str × Nat × Nat)) (h : Heap) (G : Graph)
    (h' : Heap) (G' : Graph) (infosNew : List CopyInfo) : Prop :=
  G'.nodes = G.nodes ++ infosNew.flatMap (fun ci => ci.nmap.map (fun q => q.2)) ∧
  (infosNew.flatMap (fun ci => ci.nmap.map (fun q => q.2))).Nodup ∧
  (∀ e ∈ G'.edges, e ∈ G.edges ∨
    (∃ e0 ∈ S.edges, (e0.1, e.1) ∈ infosNew.flatMap (fun ci => ci.nmap) ∧
      (e0.2.1, e.2.1) ∈ infosNew.flatMap (fun ci => ci.nmap) ∧
      h.fresh ≤ e.2.2 ∧ e.2.2 < h'.fresh ∧ lookupP h' e.2.2 = lookupP h e0.2.2) ∨
    (∃ t ∈ einfo, e.1 = t.2.1 ∧ e.2.2 = t.2.2 ∧
      ∃ o, (o, e.2.1) ∈ infosNew.flatMap (fun ci => ci.nmap))) ∧
  (∀ ci ∈ infosNew, ci.nmap.map (fun q => q.1) = S.nodes ∧
    ∀ q ∈ ci.nmap, h.fresh ≤ q.2 ∧ q.2 < h'.fresh ∧
      (lookupN h' q.2).nid = (lookupN h q.1).nid ++ Nat.toDigits 10 ci.idx ∧
      (lookupN h' q.2).iterables = (lookupN h q.1).iterables ∧
      (lookupN h' q.2).parameterization =
        paramStrOf ci.params :: (lookupN h q.1).parameterization ∧
      nodeLive h' q.2) ∧
  h.fresh ≤ h'.fresh ∧
  (∀ x, x < h.fresh → lookupN h' x = lookupN h x) ∧
  (∀ x, x < h.fresh → lookupP h' x = lookupP h x) ∧
  (∀ x, nodeLive h x → nodeLive h' x) ∧
  heapWF h'

theorem mergeLoop_facts (S : Graph) (nodeid : Str) (einfo : List (Str × Nat × Nat)) :
    ∀ (pss : List (List (Str × Val))) (i : Nat) (h : Heap) (G : Graph)
      (infos : List CopyInfo) (h' : Heap) (G' : Graph) (infos' : List CopyInfo),
      heapWF h →
      S.nodes.Nodup →
      (∀ r ∈ S.nodes, r < h.fresh) →
      (∀ e ∈ S.edges, e.1 ∈ S.nodes ∧ e.2.1 ∈ S.nodes) →
      (∀ e ∈ S.edges, e.2.2 < h.fresh) →
      mergeLoop S nodeid einfo pss i h G infos = some (h', G', infos') →
      ∃ infosNew, infos' = infos ++ infosNew ∧
        infosNew.map (fun ci => ci.idx) = List.range' i pss.length ∧
        infosNew.map (fun ci => ci.params) = pss ∧
        MergeLoopFacts S einfo h G h' G' infosNew := by
  intro pss
  induction pss with
  | nil =>
    intro i h G infos h' G' infos' _ _ _ _ _ hsucc
    simp only [mergeLoop, Option.some.injEq, Prod.mk.injEq] at hsucc
    obtain ⟨hh, hG, hinf⟩ := hsucc
    subst hh; subst hG; subst hinf
    refine ⟨[], by simp, by simp, by simp, ?_⟩
    refine ⟨by simp, by simp, ?_, by simp, Nat.le_refl _,
      fun x _ => rfl, fun x _ => rfl, fun x hx => hx, ‹heapWF h›⟩
    intro e he
    exact Or.inl he
  | cons ps rest ih =>
    intro i h G infos h' G' infos' hhw hSnd hSlt hSep hSpl hsucc
    rw [mergeLoop_cons] at hsucc
    cases hmc : mergeCopy S nodeid einfo h G i ps with
    | none => rw [hmc] at hsucc; exact absurd hsucc (by simp)
    | some r =>
      rw [hmc] at hsucc
      have hr : mergeCopy S nodeid einfo h G i ps = some (r.1, r.2.1, r.2.2) := by
        rw [hmc]
      obtain ⟨hidx, hparams, F1⟩ := mergeCopy_facts S nodeid einfo h G i ps
        r.1 r.2.1 r.2.2 hhw hSnd hSlt hSep hSpl hr
      obtain ⟨Fkeys, Fnd, Fnodes, Fedges, Fcopy, Ffle, FlkN, FlkP, Flive, Fwf⟩ := F1
      have hSlt1 : ∀ x ∈ S.nodes, x < r.1.fresh := fun x hx => lt_of_lt_of_le (hSlt x hx) Ffle
      have hSpl1 : ∀ e ∈ S.edges, e.2.2 < r.1.fresh :=
        fun e he => lt_of_lt_of_le (hSpl e he) Ffle
      obtain ⟨infosNew', hinf', hidx', hparams', L2⟩ :=
        ih (i + 1) r.1 r.2.1 (infos ++ [r.2.2]) h' G' infos' Fwf hSnd hSlt1 hSep hSpl1 hsucc
      obtain ⟨Lnodes, Lnd, Ledges, Lcopy, Lfle, LlkN, LlkP, Llive, Lwf⟩ := L2
      refine ⟨r.2.2 :: infosNew', by rw [hinf']; simp, ?_, ?_, ?_⟩
      · simp only [List.map_cons, hidx, hidx', List.length_cons]
        rw [List.range'_succ]
      · simp only [List.map_cons, hparams, hparams']
      · constructor
        · -- nodes
          rw [Lnodes, Fnodes]
          simp [List.append_assoc]
        constructor
        · -- nodup of new nodes
          simp only [List.flatMap_cons]
          refine List.Nodup.append Fnd Lnd ?_
          intro a ha1 ha2
          have h1 : a < r.1.fresh := by
            obtain ⟨q, hq, hqe⟩ := List.mem_map.mp ha1
            exact hqe ▸ (Fcopy q hq).2.1
          have h2 : r.1.fresh ≤ a := by
            obtain ⟨ci, hci, hq⟩ := List.mem_flatMap.mp ha2
            obtain ⟨q, hq2, hqe⟩ := List.mem_map.mp hq
            exact hqe ▸ ((Lcopy ci hci).2 q hq2).1
          omega
        constructor
        · -- edge classification
          intro e he
          rcases Ledges e he with hc | hc | hc
          · rcases Fedges e hc with hc2 | hc2 | hc2
            · exact Or.inl hc2
            · obtain ⟨e0, he0, hm1, hm2, hge, hlt, hpl⟩ := hc2
              refine Or.inr (Or.inl ⟨e0, he0, ?_, ?_, hge, ?_, ?_⟩)
              · simp only [List.flatMap_cons]
                exact List.mem_append_left _ hm1
              · simp only [List.flatMap_cons]
                exact List.mem_append_left _ hm2
              · omega
              · rw [LlkP e.2.2 hlt]
                exact hpl
            · obtain ⟨t, ht, he1, he2, o, ho⟩ := hc2
              refine Or.inr (Or.inr ⟨t, ht, he1, he2, o, ?_⟩)
              simp only [List.flatMap_cons]
              exact List.mem_append_left _ ho
          · obtain ⟨e0, he0, hm1, hm2, hge, hlt, hpl⟩ := hc
            refine Or.inr (Or.inl ⟨e0, he0, ?_, ?_, ?_, hlt, ?_⟩)
            · simp only [List.flatMap_cons]
              exact List.mem_append_right _ hm1
            · simp only [List.flatMap_cons]
              exact List.mem_append_right _ hm2
            · omega
            · rw [hpl]
              exact FlkP e0.2.2 (hSpl e0 he0)
          · obtain ⟨t, ht, he1, he2, o, ho⟩ := hc
            refine Or.inr (Or.inr ⟨t, ht, he1, he2, o, ?_⟩)
            simp only [List.flatMap_cons]
            exact List.mem_append_right _ ho
        constructor
        · -- per-copy facts
          intro ci hci
          rcases List.mem_cons.mp hci with hci | hci
          · subst hci
            refine ⟨Fkeys, ?_⟩
            intro q hq
            obtain ⟨hge, hlt, hnid, hit, hpar, hlv⟩ := Fcopy q hq
            refine ⟨hge, by omega, ?_, ?_, ?_, Llive q.2 hlv⟩
            · rw [LlkN q.2 hlt]
              exact hnid
            · rw [LlkN q.2 hlt]
              exact hit
            · rw [LlkN q.2 hlt]
              exact hpar
          · obtain ⟨hkeys, hq⟩ := Lcopy ci hci
            refine ⟨hkeys, ?_⟩
            intro q hqm
            obtain ⟨hge, hlt, hnid, hit, hpar, hlv⟩ := hq q hqm
            have hq1lt : q.1 < h.fresh := by
              apply hSlt
              rw [← hkeys]
              exact List.mem_map_of_mem _ hqm
            refine ⟨by omega, hlt, ?_, ?_, ?_, hlv⟩
            · rw [hnid, FlkN q.1 hq1lt]
            · rw [hit, FlkN q.1 hq1lt]
            · rw [hpar, FlkN q.1 hq1lt]
        refine ⟨by omega, ?_, ?_, ?_, Lwf⟩
        · intro x hx
          rw [LlkN x (by omega), FlkN x hx]
        · intro x hx
          rw [LlkP x (by omega), FlkP x hx]
        · intro x hx
          exact Llive x (Flive x hx)

theorem mergeLoop_some (S : Graph) (nodeid : Str) (einfo : List (Str × Nat × Nat)) :
    ∀ (pss : List (List (Str × Val))) (i : Nat) (h : Heap) (G : Graph)
      (infos : List CopyInfo),
      heapWF h →
      S.nodes.Nodup →
      (∀ r ∈ S.nodes, r < h.fresh) →
      (∀ e ∈ S.edges, e.1 ∈ S.nodes ∧ e.2.1 ∈ S.nodes) →
      (∀ e ∈ S.edges, e.2.2 < h.fresh) →
      (∃ o ∈ S.nodes, (lookupN h o).nid = nodeid) →
      (mergeLoop S nodeid einfo pss i h G infos).isSome := by
  intro pss
  induction pss with
  | nil =>
    intro i h G infos _ _ _ _ _ _
    simp [mergeLoop]
  | cons ps rest ih =>
    intro i h G infos hhw hSnd hSlt hSep hSpl hdrv
    rw [mergeLoop_cons]
    obtain ⟨o, ho, hoid⟩ := hdrv
    have hkey : o ∈ (deepcopyGraph h S).2.2.map (fun q => q.1) := by
      rw [deepcopy_nm_keys]
      exact ho
    have hpair := mlook_mem_of_key _ _ hkey
    have hnode : mlook (deepcopyGraph h S).2.2 o ∈ (deepcopyGraph h S).2.1.nodes := by
      show _ ∈ (deepcopyGraph h S).2.2.map (fun q => q.2)
      exact List.mem_map.mpr ⟨(o, mlook (deepcopyGraph h S).2.2 o), hpair, rfl⟩
    have hlk := deepcopy_lookup_new h S hSlt (o, mlook (deepcopyGraph h S).2.2 o) hpair
    have hfind : ((deepcopyGraph h S).2.1.nodes.find?
        (fun r => (lookupN (deepcopyGraph h S).1 r).nid = nodeid)).isSome := by
      rw [List.find?_isSome]
      refine ⟨mlook (deepcopyGraph h S).2.2 o, hnode, ?_⟩
      simp only [decide_eq_true_eq]
      rw [hlk]
      exact hoid
    cases hmc2 : mergeCopy S nodeid einfo h G i ps with
    | none =>
      exfalso
      rw [mergeCopy_def] at hmc2
      obtain ⟨d, hfd⟩ := Option.isSome_iff_exists.mp hfind
      rw [hfd] at hmc2
      simp at hmc2
    | some r =>
      have hr : mergeCopy S nodeid einfo h G i ps = some (r.1, r.2.1, r.2.2) := by
        rw [hmc2]
      obtain ⟨_, _, F1⟩ := mergeCopy_facts S nodeid einfo h G i ps
        r.1 r.2.1 r.2.2 hhw hSnd hSlt hSep hSpl hr
      obtain ⟨_, _, _, _, _, Ffle, FlkN, _, _, Fwf⟩ := F1
      have := ih (i + 1) r.1 r.2.1 (infos ++ [r.2.2]) Fwf hSnd
        (fun x hx => lt_of_lt_of_le (hSlt x hx) Ffle) hSep
        (fun e he => lt_of_lt_of_le (hSpl e he) Ffle)
        ⟨o, ho, by rw [FlkN o (hSlt o ho)]; exact hoid⟩
      exact this

/-! ## `edgeinfoOf` and `mergeGraphsC` lemmas -/

theorem edgeinfoOf_cons (h : Heap) (G S : Graph) (n : Nat) (rest : List Nat) :
    edgeinfoOf h G S (n :: rest) =
      match G.nodes.find? (fun r => (lookupN h r).nid = (lookupN h n).nid) with
      | none => none
      | some r =>
        (edgeinfoOf h G S rest).map
          (fun tl => ((G.edges.filter (fun e => e.2.1 = r ∧ e.1 ∉ S.nodes)).map
            (fun e => ((lookupN h n).nid, e.1, e.2.2))) ++ tl) := rfl

theorem edgeinfoOf_some (h : Heap) (G S : Graph) :
    ∀ ns : List Nat,
      (∀ n ∈ ns, ∃ r ∈ G.nodes, (lookupN h r).nid = (lookupN h n).nid) →
      (edgeinfoOf h G S ns).isSome := by
  intro ns
  induction ns with
  | nil => intro _; simp [edgeinfoOf]
  | cons n rest ih =>
    intro hex
    rw [edgeinfoOf_cons]
    have hfind : (G.nodes.find?
        (fun r => (lookupN h r).nid = (lookupN h n).nid)).isSome := by
      rw [List.find?_isSome]
      obtain ⟨r, hr, hre⟩ := hex n (List.mem_cons_self _ _)
      exact ⟨r, hr, by simpa using hre⟩
    cases hfd : G.nodes.find? (fun r => (lookupN h r).nid = (lookupN h n).nid) with
    | none => rw [hfd] at hfind; simp at hfind
    | some r =>
      have := ih (fun m hm => hex m (List.mem_cons_of_mem _ hm))
      cases he : edgeinfoOf h G S rest with
      | none => rw [he] at this; simp at this
      | some tl => simp [he]

theorem edgeinfoOf_facts (h : Heap) (G S : Graph) :
    ∀ (ns : List Nat) (einfo : List (Str × Nat × Nat)),
      edgeinfoOf h G S ns = some einfo →
      ∀ t ∈ einfo, ∃ e ∈ G.edges, t.2.1 = e.1 ∧ t.2.2 = e.2.2 ∧ e.1 ∉ S.nodes := by
  intro ns
  induction ns with
  | nil =>
    intro einfo hsucc t ht
    simp only [edgeinfoOf, Option.some.injEq] at hsucc
    rw [← hsucc] at ht
    simp at ht
  | cons n rest ih =>
    intro einfo hsucc t ht
    rw [edgeinfoOf_cons] at hsucc
    cases hfd : G.nodes.find? (fun r => (lookupN h r).nid = (lookupN h n).nid) with
    | none => rw [hfd] at hsucc; simp at hsucc
    | some r =>
      rw [hfd] at hsucc
      obtain ⟨tl, htl, hte⟩ := Option.map_eq_some'.mp hsucc
      rw [← hte] at ht
      rcases List.mem_append.mp ht with hm | hm
      · obtain ⟨e, he, hee⟩ := List.mem_map.mp hm
        have hef := List.of_mem_filter he
        simp only [decide_eq_true_eq, Bool.and_eq_true, decide_not] at hef
        refine ⟨e, List.mem_of_mem_filter he, ?_, ?_, ?_⟩
        · rw [← hee]
        · rw [← hee]
        · simpa using hef.2
      · exact ih tl htl t hm

theorem mergeGraphsC_def (h : Heap) (G : Graph) (nodes : List Nat) (S : Graph)
    (nodeid : Str) (iterables : List (Str × List Val)) :
    mergeGraphsC h G nodes S nodeid iterables =
      match edgeinfoOf h G S S.nodes with
      | none => none
      | some einfo =>
        mergeLoop S nodeid einfo (walk iterables []) 0 h (removeNodes G nodes) [] := rfl

theorem mergeGraphsC_facts (h : Heap) (G : Graph) (nodes : List Nat) (S : Graph)
    (nodeid : Str) (iterables : List (Str × List Val))
    (h' : Heap) (G' : Graph) (infos : List CopyInfo)
    (hhw : heapWF h)
    (hSnd : S.nodes.Nodup)
    (hSlt : ∀ r ∈ S.nodes, r < h.fresh)
    (hSep : ∀ e ∈ S.edges, e.1 ∈ S.nodes ∧ e.2.1 ∈ S.nodes)
    (hSpl : ∀ e ∈ S.edges, e.2.2 < h.fresh)
    (hsucc : mergeGraphsC h G nodes S nodeid iterables = some (h', G', infos)) :
    ∃ einfo, edgeinfoOf h G S S.nodes = some einfo ∧
      infos.map (fun ci => ci.idx) = List.range' 0 (walk iterables []).length ∧
      infos.map (fun ci => ci.params) = walk iterables [] ∧
      MergeLoopFacts S einfo h (removeNodes G nodes) h' G' infos := by
  rw [mergeGraphsC_def] at hsucc
  cases he : edgeinfoOf h G S S.nodes with
  | none => rw [he] at hsucc; exact absurd hsucc (by simp)
  | some einfo =>
    rw [he] at hsucc
    obtain ⟨infosNew, h1, h2, h3, h4⟩ := mergeLoop_facts S nodeid einfo
      (walk iterables []) 0 h (removeNodes G nodes) [] h' G' infos
      hhw hSnd hSlt hSep hSpl hsucc
    rw [List.nil_append] at h1
    subst h1
    exact ⟨einfo, rfl, h2, h3, h4⟩

theorem mergeGraphsC_some (h : Heap) (G : Graph) (nodes : List Nat) (S : Graph)
    (nodeid : Str) (iterables : List (Str × List Val))
    (hhw : heapWF h)
    (hSnd : S.nodes.Nodup)
    (hSlt : ∀ r ∈ S.nodes, r < h.fresh)
    (hSep : ∀ e ∈ S.edges, e.1 ∈ S.nodes ∧ e.2.1 ∈ S.nodes)
    (hSpl : ∀ e ∈ S.edges, e.2.2 < h.fresh)
    (hids : ∀ n ∈ S.nodes, ∃ r ∈ G.nodes, (lookupN h r).nid = (lookupN h n).nid)
    (hdrv : ∃ o ∈ S.nodes, (lookupN h o).nid = nodeid) :
    (mergeGraphsC h G nodes S nodeid iterables).isSome := by
  rw [mergeGraphsC_def]
  have hei := edgeinfoOf_some h G S S.nodes hids
  cases he : edgeinfoOf h G S S.nodes with
  | none => rw [he] at hei; simp at hei
  | some einfo =>
    exact mergeLoop_some S nodeid einfo (walk iterables []) 0 h
      (removeNodes G nodes) [] hhw hSnd hSlt hSep hSpl hdrv

/-- A name mapped to an empty value sequence makes the whole cartesian
product empty: `walk` yields nothing. -/
theorem walk_nil_of_empty_value :
    ∀ (children : List (Str × List Val)) (path : List (Str × Val)) (k : Str),
      (k, ([] : List Val)) ∈ children → walk children path = [] := by
  intro children
  induction children with
  | nil => intro path k hk; simp at hk
  | cons hd tail ih =>
    intro path k hk
    obtain ⟨name, vals⟩ := hd
    rcases List.mem_cons.mp hk with hk | hk
    · injection hk with hk1 hk2
      rw [walk, hk2.symm]
      rfl
    · rw [walk]
      apply List.flatMap_eq_nil_iff.mpr
      intro v _
      exact ih _ k hk

/-! ## Kahn's algorithm: correctness of `topoSort` -/

theorem kahnGo_succ (es : List (Nat × Nat × Nat)) (fuel : Nat) (ns : List Nat) :
    kahnGo es (fuel + 1) ns =
      if ns.isEmpty then some []
      else
        match ns.find? (fun n => ¬ es.any (fun e => e.2.1 = n ∧ e.1 ∈ ns)) with
        | none => none
        | some n => (kahnGo es fuel (ns.erase n)).map (fun l => n :: l) := rfl

theorem kahnGo_perm (es : List (Nat × Nat × Nat)) :
    ∀ (fuel : Nat) (ns : List Nat) (L : List Nat),
      kahnGo es fuel ns = some L → L.Perm ns := by
  intro fuel
  induction fuel with
  | zero =>
    intro ns L hs
    simp only [kahnGo] at hs
    by_cases hne : ns.isEmpty
    · rw [if_pos hne] at hs
      injection hs with hs
      rw [← hs, List.isEmpty_iff.mp hne]
    · rw [if_neg hne] at hs
      exact absurd hs (by simp)
  | succ fuel ih =>
    intro ns L hs
    rw [kahnGo_succ] at hs
    by_cases hne : ns.isEmpty
    · rw [if_pos hne] at hs
      injection hs with hs
      rw [← hs, List.isEmpty_iff.mp hne]
    · rw [if_neg hne] at hs
      cases hfd : ns.find? (fun n => ¬ es.any (fun e => e.2.1 = n ∧ e.1 ∈ ns)) with
      | none => rw [hfd] at hs; exact absurd hs (by simp)
      | some n =>
        rw [hfd] at hs
        obtain ⟨L', hL', hLe⟩ := Option.map_eq_some'.mp hs
        rw [← hLe]
        have hmem := List.mem_of_find?_eq_some hfd
        exact ((ih _ L' hL').cons n).trans (List.perm_cons_erase hmem).symm

theorem kahnGo_topo (es : List (Nat × Nat × Nat)) :
    ∀ (fuel : Nat) (ns : List Nat) (L : List Nat),
      kahnGo es fuel ns = some L →
      ∀ e ∈ es, e.1 ∈ ns → e.2.1 ∈ ns → List.Sublist [e.1, e.2.1] L := by
  intro fuel
  induction fuel with
  | zero =>
    intro ns L hs e _ he1 _
    simp only [kahnGo] at hs
    by_cases hne : ns.isEmpty
    · rw [List.isEmpty_iff.mp hne] at he1
      simp at he1
    · rw [if_neg hne] at hs
      exact absurd hs (by simp)
  | succ fuel ih =>
    intro ns L hs e he he1 he2
    rw [kahnGo_succ] at hs
    by_cases hne : ns.isEmpty
    · rw [List.isEmpty_iff.mp hne] at he1
      simp at he1
    · rw [if_neg hne] at hs
      cases hfd : ns.find? (fun n => ¬ es.any (fun e => e.2.1 = n ∧ e.1 ∈ ns)) with
      | none => rw [hfd] at hs; exact absurd hs (by simp)
      | some n =>
        rw [hfd] at hs
        obtain ⟨L', hL', hLe⟩ := Option.map_eq_some'.mp hs
        have hpred : ∀ e ∈ es, ¬ (e.2.1 = n ∧ e.1 ∈ ns) := by
          have := List.find?_some hfd
          simp only [decide_not, Bool.not_eq_true', decide_eq_false_iff_not] at this
          intro e2 he2m hc
          exact this (List.any_eq_true.mpr ⟨e2, he2m, by simp [hc.1, hc.2]⟩)
        have hdn : e.2.1 ≠ n := by
          intro hc
          exact hpred e he ⟨hc, he1⟩
        rw [← hLe]
        by_cases hsn : e.1 = n
        · subst hsn
          apply List.Sublist.cons₂
          apply List.singleton_sublist.mpr
          have h2m : e.2.1 ∈ ns.erase e.1 := List.mem_erase_of_ne hdn |>.mpr he2
          exact ((kahnGo_perm es fuel _ L' hL').mem_iff).mpr h2m
        · have h1 : e.1 ∈ ns.erase n := List.mem_erase_of_ne hsn |>.mpr he1
          have h2 : e.2.1 ∈ ns.erase n := List.mem_erase_of_ne hdn |>.mpr he2
          exact (ih _ L' hL' e he h1 h2).cons n

theorem sublist_pair_indexOf (a b : Nat) :
    ∀ m : List Nat, m.Nodup → List.Sublist [a, b] m → m.indexOf a < m.indexOf b := by
  intro m
  induction m with
  | nil => intro _ hs; cases hs
  | cons x t ih =>
    intro hnd hs
    have hxt : x ∉ t := (List.nodup_cons.mp hnd).1
    cases hs with
    | cons _ hs' =>
      have ha : a ∈ t := hs'.subset (by simp)
      have hb : b ∈ t := hs'.subset (by simp)
      have hax : a ≠ x := fun hc => hxt (hc ▸ ha)
      have hbx : b ≠ x := fun hc => hxt (hc ▸ hb)
      rw [List.indexOf_cons_ne t (Ne.symm hax), List.indexOf_cons_ne t (Ne.symm hbx)]
      have := ih (List.nodup_cons.mp hnd).2 hs'
      omega
    | cons₂ _ hs' =>
      have hb : b ∈ t := List.singleton_sublist.mp hs'
      have hbx : b ≠ a := fun hc => hxt (hc ▸ hb)
      rw [List.indexOf_cons_self, List.indexOf_cons_ne t (Ne.symm hbx)]
      omega

theorem rankOk_rtg (G : Graph) (ρ : Nat → Nat) (hr : RankOk G.edges ρ) :
    ∀ a b, Relation.ReflTransGen (edgeRel G) a b → ρ a ≤ ρ b := by
  intro a b hab
  induction hab with
  | refl => exact Nat.le_refl _
  | tail _ hbc ihab =>
    obtain ⟨p, hp⟩ := hbc
    exact Nat.le_trans ihab (Nat.le_of_lt (hr _ hp))

theorem rankOk_no_cycle (G : Graph) (ρ : Nat → Nat) (hr : RankOk G.edges ρ) :
    ¬ hasCycle G := by
  rintro ⟨u, v, ⟨p, hp⟩, hrtg⟩
  have h1 : ρ u < ρ v := hr _ hp
  have h2 : ρ v ≤ ρ u := rankOk_rtg G ρ hr v u hrtg
  omega

/-- A stuck Kahn state (every remaining node has an incoming edge from a
remaining node) yields a directed cycle. -/
theorem stuck_has_cycle (G : Graph) (ns : List Nat) (hne : ns ≠ [])
    (hstuck : ∀ n ∈ ns, ∃ e ∈ G.edges, e.2.1 = n ∧ e.1 ∈ ns) : hasCycle G := by
  classical
  have hex : ∀ n : Nat, ∃ m : Nat, n ∈ ns → (m ∈ ns ∧ edgeRel G m n) := by
    intro n
    by_cases hn : n ∈ ns
    · obtain ⟨e, he, h1, h2⟩ := hstuck n hn
      refine ⟨e.1, fun _ => ⟨h2, ⟨e.2.2, ?_⟩⟩⟩
      rw [← h1]
      exact he
    · exact ⟨n, fun hc => absurd hc hn⟩
  choose f hf using hex
  obtain ⟨x0, hx0⟩ := List.exists_mem_of_ne_nil ns hne
  have hiter : ∀ k, f^[k] x0 ∈ ns := by
    intro k
    induction k with
    | zero => exact hx0
    | succ k ihk =>
      rw [Function.iterate_succ_apply']
      exact (hf _ ihk).1
  have hcard : ns.toFinset.card < (Finset.range (ns.length + 1)).card := by
    rw [Finset.card_range]
    exact Nat.lt_succ_of_le ns.toFinset_card_le
  obtain ⟨a, ha, b, hb, hab, heq⟩ :=
    Finset.exists_ne_map_eq_of_card_lt_of_maps_to hcard
      (fun k _ => List.mem_toFinset.mpr (hiter k))
  have hchain : ∀ m k, k ≤ m →
      Relation.ReflTransGen (edgeRel G) (f^[m] x0) (f^[k] x0) := by
    intro m
    induction m with
    | zero =>
      intro k hk
      rw [Nat.le_zero.mp hk]
    | succ m ihm =>
      intro k hk
      rcases Nat.lt_or_ge k (m + 1) with hlt | hge
      · have hkm : k ≤ m := Nat.lt_succ_iff.mp hlt
        refine Relation.ReflTransGen.head ?_ (ihm k hkm)
        rw [Function.iterate_succ_apply']
        exact (hf _ (hiter m)).2
      · rw [Nat.le_antisymm hk hge]
  rcases Nat.lt_or_ge a b with hlt | hge
  · refine ⟨f^[a + 1] x0, f^[a] x0, ?_, ?_⟩
    · rw [Function.iterate_succ_apply']
      exact (hf _ (hiter a)).2
    · rw [heq]
      exact hchain b (a + 1) hlt
  · have hlt : b < a := Nat.lt_of_le_of_ne hge (fun hc => hab hc.symm)
    refine ⟨f^[b + 1] x0, f^[b] x0, ?_, ?_⟩
    · rw [Function.iterate_succ_apply']
      exact (hf _ (hiter b)).2
    · rw [← heq]
      exact hchain a (b + 1) hlt

theorem kahnGo_isSome (G : Graph) (hnc : ¬ hasCycle G) :
    ∀ (fuel : Nat) (ns : List Nat), ns.length ≤ fuel →
      (kahnGo G.edges fuel ns).isSome := by
  intro fuel
  induction fuel with
  | zero =>
    intro ns hlen
    have : ns = [] := List.eq_nil_of_length_eq_zero (Nat.le_zero.mp hlen)
    subst this
    simp [kahnGo]
  | succ fuel ih =>
    intro ns hlen
    rw [kahnGo_succ]
    by_cases hne : ns.isEmpty
    · rw [if_pos hne]
      simp
    · rw [if_neg hne]
      cases hfd : ns.find? (fun n => ¬ G.edges.any (fun e => e.2.1 = n ∧ e.1 ∈ ns)) with
      | none =>
        exfalso
        apply hnc
        apply stuck_has_cycle G ns (fun hc => hne (by rw [hc]; rfl))
        intro n hn
        have := List.find?_eq_none.mp hfd n hn
        simp only [decide_not, Bool.not_eq_true', decide_eq_false_iff_not,
          Decidable.not_not] at this
        obtain ⟨e, he, hc⟩ := List.any_eq_true.mp this
        simp only [Bool.and_eq_true, decide_eq_true_eq] at hc
        exact ⟨e, he, hc.1, hc.2⟩
      | some n =>
        have hmem := List.mem_of_find?_eq_some hfd
        have hrec := ih (ns.erase n)
          (by rw [List.length_erase_of_mem hmem]
              have : 0 < ns.length := List.length_pos_of_mem hmem
              omega)
        cases hrecv : kahnGo G.edges fuel (ns.erase n) with
        | none => rw [hrecv] at hrec; simp at hrec
        | some L => simp [hrecv]

theorem topoSort_isSome_of_acyclic (G : Graph) (hnc : ¬ hasCycle G) :
    (topoSort G).isSome :=
  kahnGo_isSome G hnc G.nodes.length G.nodes (Nat.le_refl _)

theorem topoSort_perm (G : Graph) (L : List Nat) (hs : topoSort G = some L) :
    L.Perm G.nodes :=
  kahnGo_perm G.edges G.nodes.length G.nodes L hs

/-- The computed order satisfies the topological property, as index
comparison: sources come strictly before destinations. -/
theorem topoSort_indexOf (G : Graph) (L : List Nat) (hs : topoSort G = some L)
    (hnd : G.nodes.Nodup)
    (hep : ∀ e ∈ G.edges, e.1 ∈ G.nodes ∧ e.2.1 ∈ G.nodes) :
    ∀ e ∈ G.edges, L.indexOf e.1 < L.indexOf e.2.1 := by
  intro e he
  have hsub := kahnGo_topo G.edges G.nodes.length G.nodes L hs e he
    (hep e he).1 (hep e he).2
  have hLnd : L.Nodup := (topoSort_perm G L hs).nodup_iff.mpr hnd
  exact sublist_pair_indexOf e.1 e.2.1 L hLnd hsub

theorem topoSort_none_of_cycle (G : Graph) (hcyc : hasCycle G)
    (hnd : G.nodes.Nodup)
    (hep : ∀ e ∈ G.edges, e.1 ∈ G.nodes ∧ e.2.1 ∈ G.nodes) :
    topoSort G = none := by
  cases hs : topoSort G with
  | none => rfl
  | some L =>
    exfalso
    exact rankOk_no_cycle G (fun x => L.indexOf x)
      (fun e he => topoSort_indexOf G L hs hnd hep e he) hcyc

/-- Reversed-order topological property: in the sink-ward order, every edge's
destination comes strictly before its source. -/
theorem topoSort_rev_indexOf (G : Graph) (L : List Nat) (hs : topoSort G = some L)
    (hnd : G.nodes.Nodup)
    (hep : ∀ e ∈ G.edges, e.1 ∈ G.nodes ∧ e.2.1 ∈ G.nodes) :
    ∀ e ∈ G.edges, L.reverse.indexOf e.2.1 < L.reverse.indexOf e.1 := by
  intro e he
  have hsub := kahnGo_topo G.edges G.nodes.length G.nodes L hs e he
    (hep e he).1 (hep e he).2
  have hrsub : List.Sublist [e.2.1, e.1] L.reverse := by
    have := hsub.reverse
    simpa using this
  have hLnd : L.reverse.Nodup :=
    List.nodup_reverse.mpr ((topoSort_perm G L hs).nodup_iff.mpr hnd)
  exact sublist_pair_indexOf e.2.1 e.1 L.reverse hLnd hrsub

/-! ## Reachability (`reachableFrom`) lemmas -/

theorem nodup_subset_length (l1 l2 : List Nat) (h : l1.Nodup) (hs : l1 ⊆ l2) :
    l1.length ≤ l2.length := by
  have h1 : l1.toFinset.card = l1.length := List.toFinset_card_of_nodup h
  have h2 : l1.toFinset ⊆ l2.toFinset := by
    intro x hx
    exact List.mem_toFinset.mpr (hs (List.mem_toFinset.mp hx))
  have h3 := Finset.card_le_card h2
  have h4 : l2.toFinset.card ≤ l2.length := l2.toFinset_card_le
  omega

theorem reachStep_cons (e : Nat × Nat × Nat) (rest : List (Nat × Nat × Nat))
    (acc : List Nat) :
    reachStep (e :: rest) acc =
      reachStep rest (if e.1 ∈ acc ∧ e.2.1 ∉ acc then acc ++ [e.2.1] else acc) := rfl

theorem reachStep_append (es : List (Nat × Nat × Nat)) :
    ∀ acc : List Nat, ∃ ext, reachStep es acc = acc ++ ext := by
  induction es with
  | nil => intro acc; exact ⟨[], by simp [reachStep]⟩
  | cons e rest ih =>
    intro acc
    show ∃ ext, reachStep rest (if e.1 ∈ acc ∧ e.2.1 ∉ acc then acc ++ [e.2.1] else acc) =
      acc ++ ext
    by_cases hc : e.1 ∈ acc ∧ e.2.1 ∉ acc
    · rw [if_pos hc]
      obtain ⟨ext, hext⟩ := ih (acc ++ [e.2.1])
      exact ⟨[e.2.1] ++ ext, by rw [hext, List.append_assoc]⟩
    · rw [if_neg hc]
      exact ih acc

theorem reachStep_mem (es : List (Nat × Nat × Nat)) (acc : List Nat) (x : Nat)
    (hx : x ∈ acc) : x ∈ reachStep es acc := by
  obtain ⟨ext, hext⟩ := reachStep_append es acc
  rw [hext]
  exact List.mem_append_left _ hx

theorem reachIter_mem (es : List (Nat × Nat × Nat)) :
    ∀ (k : Nat) (acc : List Nat) (x : Nat), x ∈ acc → x ∈ reachIter es k acc := by
  intro k
  induction k with
  | zero => intro acc x hx; exact hx
  | succ k ih =>
    intro acc x hx
    exact ih (reachStep es acc) x (reachStep_mem es acc x hx)

theorem reachStep_fix_closed (es : List (Nat × Nat × Nat)) :
    ∀ acc : List Nat, reachStep es acc = acc →
      ∀ e ∈ es, e.1 ∈ acc → e.2.1 ∈ acc := by
  induction es with
  | nil => intro acc _ e he; simp at he
  | cons e0 rest ih =>
    intro acc hfix e he
    have hfix' : reachStep rest
        (if e0.1 ∈ acc ∧ e0.2.1 ∉ acc then acc ++ [e0.2.1] else acc) = acc := hfix
    by_cases hc : e0.1 ∈ acc ∧ e0.2.1 ∉ acc
    · exfalso
      rw [if_pos hc] at hfix'
      obtain ⟨ext, hext⟩ := reachStep_append rest (acc ++ [e0.2.1])
      rw [hext] at hfix'
      have := congrArg List.length hfix'
      simp at this
    · rw [if_neg hc] at hfix'
      rcases List.mem_cons.mp he with he0 | hrest
      · subst he0
        intro hsrc
        by_cases hd : e.2.1 ∈ acc
        · exact hd
        · exact absurd ⟨hsrc, hd⟩ hc
      · exact ih acc hfix' e hrest

theorem reachStep_inv (es : List (Nat × Nat × Nat)) (P : Nat → Prop)
    (hstep : ∀ e ∈ es, P e.1 → P e.2.1) :
    ∀ acc : List Nat, (∀ x ∈ acc, P x) → ∀ x ∈ reachStep es acc, P x := by
  induction es with
  | nil => intro acc hacc x hx; exact hacc x hx
  | cons e0 rest ih =>
    intro acc hacc x hx
    have hx' : x ∈ reachStep rest
        (if e0.1 ∈ acc ∧ e0.2.1 ∉ acc then acc ++ [e0.2.1] else acc) := hx
    have hstep' : ∀ e ∈ rest, P e.1 → P e.2.1 :=
      fun e he => hstep e (List.mem_cons_of_mem _ he)
    by_cases hc : e0.1 ∈ acc ∧ e0.2.1 ∉ acc
    · rw [if_pos hc] at hx'
      refine ih hstep' (acc ++ [e0.2.1]) ?_ x hx'
      intro y hy
      rcases List.mem_append.mp hy with hy | hy
      · exact hacc y hy
      · simp only [List.mem_singleton] at hy
        subst hy
        exact hstep e0 (List.mem_cons_self _ _) (hacc e0.1 hc.1)
    · rw [if_neg hc] at hx'
      exact ih hstep' acc hacc x hx'

theorem reachIter_inv (es : List (Nat × Nat × Nat)) (P : Nat → Prop)
    (hstep : ∀ e ∈ es, P e.1 → P e.2.1) :
    ∀ (k : Nat) (acc : List Nat), (∀ x ∈ acc, P x) → ∀ x ∈ reachIter es k acc, P x := by
  intro k
  induction k with
  | zero => intro acc hacc x hx; exact hacc x hx
  | succ k ih =>
    intro acc hacc x hx
    exact ih (reachStep es acc) (reachStep_inv es P hstep acc hacc) x hx

theorem reachStep_nodup_sub (es : List (Nat × Nat × Nat)) (ns : List Nat)
    (hes : ∀ e ∈ es, e.2.1 ∈ ns) :
    ∀ acc : List Nat, acc.Nodup → acc ⊆ ns →
      (reachStep es acc).Nodup ∧ reachStep es acc ⊆ ns := by
  induction es with
  | nil => intro acc h1 h2; exact ⟨h1, h2⟩
  | cons e0 rest ih =>
    intro acc h1 h2
    have hes' : ∀ e ∈ rest, e.2.1 ∈ ns := fun e he => hes e (List.mem_cons_of_mem _ he)
    rw [reachStep_cons]
    by_cases hc : e0.1 ∈ acc ∧ e0.2.1 ∉ acc
    · rw [if_pos hc]
      refine ih hes' (acc ++ [e0.2.1]) ?_ ?_
      · simp [List.nodup_append, h1, hc.2]
      · intro y hy
        rcases List.mem_append.mp hy with hy | hy
        · exact h2 hy
        · simp only [List.mem_singleton] at hy
          subst hy
          exact hes e0 (List.mem_cons_self _ _)
    · rw [if_neg hc]
      exact ih hes' acc h1 h2

theorem reachIter_stable (es : List (Nat × Nat × Nat)) (acc : List Nat)
    (hfix : reachStep es acc = acc) : ∀ k, reachIter es k acc = acc := by
  intro k
  induction k with
  | zero => rfl
  | succ k ih =>
    show reachIter es k (reachStep es acc) = acc
    rw [hfix]
    exact ih

theorem reachIter_reaches_fix (es : List (Nat × Nat × Nat)) (ns : List Nat)
    (hes : ∀ e ∈ es, e.2.1 ∈ ns) :
    ∀ (m : Nat) (acc : List Nat), acc.Nodup → acc ⊆ ns → ns.length < acc.length + m →
      reachStep es (reachIter es m acc) = reachIter es m acc := by
  intro m
  induction m with
  | zero =>
    intro acc hnd hsub hlen
    have := nodup_subset_length acc ns hnd hsub
    omega
  | succ m ih =>
    intro acc hnd hsub hlen
    by_cases hfix : reachStep es acc = acc
    · have hstable := reachIter_stable es acc hfix
      show reachStep es (reachIter es m (reachStep es acc)) = reachIter es m (reachStep es acc)
      rw [hfix, hstable m, hfix]
    · obtain ⟨ext, hext⟩ := reachStep_append es acc
      have hextne : ext ≠ [] := by
        intro hc
        rw [hc, List.append_nil] at hext
        exact hfix hext
      have hlen2 : acc.length + 1 ≤ (reachStep es acc).length := by
        rw [hext, List.length_append]
        have : 0 < ext.length := List.length_pos_of_ne_nil hextne
        omega
      obtain ⟨hnd2, hsub2⟩ := reachStep_nodup_sub es ns hes acc hnd hsub
      show reachStep es (reachIter es m (reachStep es acc)) = _
      exact ih (reachStep es acc) hnd2 hsub2 (by omega)

theorem reachableFrom_self (G : Graph) (r : Nat) : r ∈ reachableFrom G r :=
  reachIter_mem G.edges G.nodes.length [r] r (by simp)

theorem reachableFrom_sub (G : Graph) (r : Nat) (hr : r ∈ G.nodes)
    (hep : ∀ e ∈ G.edges, e.1 ∈ G.nodes ∧ e.2.1 ∈ G.nodes) :
    ∀ x ∈ reachableFrom G r, x ∈ G.nodes := by
  apply reachIter_inv G.edges (fun x => x ∈ G.nodes)
    (fun e he _ => (hep e he).2)
  intro x hx
  simp only [List.mem_singleton] at hx
  subst hx
  exact hr

theorem reachableFrom_rtg (G : Graph) (r : Nat) :
    ∀ x ∈ reachableFrom G r, Relation.ReflTransGen (edgeRel G) r x := by
  apply reachIter_inv G.edges (fun x => Relation.ReflTransGen (edgeRel G) r x)
    (fun e he hsrc => Relation.ReflTransGen.tail hsrc ⟨e.2.2, by simpa using he⟩)
  intro x hx
  simp only [List.mem_singleton] at hx
  subst hx
  exact Relation.ReflTransGen.refl

theorem reachableFrom_closed (G : Graph) (r : Nat) (hr : r ∈ G.nodes)
    (hep : ∀ e ∈ G.edges, e.1 ∈ G.nodes ∧ e.2.1 ∈ G.nodes) :
    ∀ e ∈ G.edges, e.1 ∈ reachableFrom G r → e.2.1 ∈ reachableFrom G r := by
  have hfix := reachIter_reaches_fix G.edges G.nodes
    (fun e he => (hep e he).2) G.nodes.length [r] (by simp)
    (by intro x hx; simp only [List.mem_singleton] at hx; subst hx; exact hr)
    (by simp)
  exact reachStep_fix_closed G.edges (reachableFrom G r) hfix

theorem reachableFrom_nodup (G : Graph) (r : Nat)
    (hep : ∀ e ∈ G.edges, e.2.1 ∈ G.nodes) (hr : r ∈ G.nodes) :
    (reachableFrom G r).Nodup := by
  have : ∀ (k : Nat) (acc : List Nat), acc.Nodup → acc ⊆ G.nodes →
      (reachIter G.edges k acc).Nodup := by
    intro k
    induction k with
    | zero => intro acc h1 _; exact h1
    | succ k ih =>
      intro acc h1 h2
      obtain ⟨h3, h4⟩ := reachStep_nodup_sub G.edges G.nodes hep acc h1 h2
      exact ih (reachStep G.edges acc) h3 h4
  apply this G.nodes.length [r] (by simp)
  intro x hx
  simp only [List.mem_singleton] at hx
  subst hx
  exact hr

/-! ## Driver unfolding and selection lemmas -/

theorem merge_graphs_def (h : Heap) (G : Graph) (nodes : List Nat) (S : Graph)
    (nodeid : Str) (iterables : List (Str × List Val)) :
    _merge_graphs h G nodes S nodeid iterables =
      (mergeGraphsC h G nodes S nodeid iterables).map (fun t => (t.1, t.2.1)) := rfl

theorem expandAt_def (h : Heap) (G : Graph) (c : Nat) :
    expandAt h G c =
      _merge_graphs
        (setN h c (fun nd => { nd with iterables := [], nid := nd.nid ++ ['I'] }))
        G (reachableFrom G c) (subgraphOf G (reachableFrom G c))
        ((lookupN (setN h c
          (fun nd => { nd with iterables := [], nid := nd.nid ++ ['I'] })) c).nid)
        ((lookupN h c).iterables) := rfl

theorem expandStep_cycle (h : Heap) (G : Graph) (ht : topoSort G = none) :
    expandStep h G = .cycleErr := by
  unfold expandStep
  rw [ht]

theorem expandStep_done (h : Heap) (G : Graph) (L : List Nat)
    (ht : topoSort G = some L) (hi : inodesOf h L = []) : expandStep h G = .done := by
  unfold expandStep
  rw [ht]
  show (match inodesOf h L with
    | [] => StepRes.done
    | c :: _ =>
      match expandAt h G c with
      | none => StepRes.idErr
      | some r => StepRes.next r.1 r.2) = StepRes.done
  rw [hi]

theorem expandStep_next_eq (h : Heap) (G : Graph) (L : List Nat) (c : Nat)
    (rest : List Nat) (r : Heap × Graph) (ht : topoSort G = some L)
    (hi : inodesOf h L = c :: rest) (ha : expandAt h G c = some r) :
    expandStep h G = .next r.1 r.2 := by
  unfold expandStep
  rw [ht]
  show (match inodesOf h L with
    | [] => StepRes.done
    | c :: _ =>
      match expandAt h G c with
      | none => StepRes.idErr
      | some r => StepRes.next r.1 r.2) = StepRes.next r.1 r.2
  rw [hi]
  show (match expandAt h G c with
    | none => StepRes.idErr
    | some r => StepRes.next r.1 r.2) = StepRes.next r.1 r.2
  rw [ha]

theorem expandLoop_succ (n : Nat) (h : Heap) (G : Graph) :
    expandLoop (n + 1) h G =
      match expandStep h G with
      | .cycleErr => .error .cycle
      | .idErr => .error .idNotFound
      | .done => .ok (h, G)
      | .next h' G' => expandLoop n h' G' := rfl

theorem generate_expanded_graph_def (h : Heap) (G : Graph) :
    _generate_expanded_graph h G = expandLoop (iterCount h G + 1) h G := rfl

/-- The head of a filtered list satisfies the predicate, belongs to the
list, and no earlier list element satisfies the predicate. -/
theorem filter_head_min (p : Nat → Bool) :
    ∀ (l : List Nat) (c : Nat) (rest : List Nat), l.filter p = c :: rest →
      p c = true ∧ c ∈ l ∧ ∀ x ∈ l, p x = true → l.indexOf c ≤ l.indexOf x := by
  intro l
  induction l with
  | nil => intro c rest hf; simp at hf
  | cons a t ih =>
    intro c rest hf
    rw [List.filter_cons] at hf
    by_cases hpa : p a = true
    · rw [if_pos hpa] at hf
      injection hf with hf1 hf2
      subst hf1
      exact ⟨hpa, List.mem_cons_self _ _, fun x _ _ => by
        rw [List.indexOf_cons_self]
        omega⟩
    · rw [if_neg hpa] at hf
      obtain ⟨hpc, hct, hmin⟩ := ih c rest hf
      have hca : c ≠ a := fun hc => hpa (hc ▸ hpc)
      refine ⟨hpc, List.mem_cons_of_mem _ hct, ?_⟩
      intro x hx hpx
      have hxa : x ≠ a := fun hc => hpa (hc ▸ hpx)
      rcases List.mem_cons.mp hx with hx | hx
      · exact absurd hx hxa
      · rw [List.indexOf_cons_ne t (Ne.symm hca), List.indexOf_cons_ne t (Ne.symm hxa)]
        have := hmin x hx hpx
        omega

/-- Positions in the sink-ward order never increase along a path. -/
theorem rtg_rev_indexOf_le (G : Graph) (L : List Nat) (hs : topoSort G = some L)
    (hnd : G.nodes.Nodup)
    (hep : ∀ e ∈ G.edges, e.1 ∈ G.nodes ∧ e.2.1 ∈ G.nodes) :
    ∀ a b, Relation.ReflTransGen (edgeRel G) a b →
      L.reverse.indexOf b ≤ L.reverse.indexOf a := by
  intro a b hab
  induction hab with
  | refl => exact Nat.le_refl _
  | tail _ hbc ihab =>
    obtain ⟨p, hp⟩ := hbc
    have := topoSort_rev_indexOf G L hs hnd hep _ hp
    exact Nat.le_trans (Nat.le_of_lt this) ihab

theorem countP_split (p q : Nat → Bool) (l : List Nat) :
    (l.filter q).countP p + (l.filter (fun x => !(q x))).countP p = l.countP p :=
  (List.countP_eq_countP_filter_add l p q).symm

theorem countP_eq_one_of (p : Nat → Bool) :
    ∀ (l : List Nat), l.Nodup → ∀ c, c ∈ l → p c = true →
      (∀ x ∈ l, x ≠ c → p x = false) → l.countP p = 1 := by
  intro l
  induction l with
  | nil => intro _ c hc; simp at hc
  | cons a t ih =>
    intro hnd c hc hpc hother
    rw [List.countP_cons]
    rcases List.mem_cons.mp hc with hc | hc
    · subst hc
      have hzero : t.countP p = 0 := by
        apply List.countP_eq_zero.mpr
        intro x hx
        have hxc : x ≠ c := fun hxe => (List.nodup_cons.mp hnd).1 (hxe ▸ hx)
        simp [hother x (List.mem_cons_of_mem _ hx) hxc]
      rw [hzero, hpc]
      simp
    · have hac : a ≠ c := fun hae => (List.nodup_cons.mp hnd).1 (hae ▸ hc)
      have hpa : p a = false := hother a (List.mem_cons_self _ _) hac
      rw [hpa]
      rw [ih (List.nodup_cons.mp hnd).2 c hc hpc
        (fun x hx => hother x (List.mem_cons_of_mem _ hx))]
      simp

theorem snd_nodup_unique :
    ∀ (m : List (Nat × Nat)), (m.map (fun q => q.2)).Nodup →
      ∀ a b a', (a, b) ∈ m → (a', b) ∈ m → a = a' := by
  intro m
  induction m with
  | nil => intro _ a b a' h1; simp at h1
  | cons q t ih =>
    intro hnd a b a' h1 h2
    have hq2t : q.2 ∉ t.map (fun q => q.2) := by
      simpa using (List.nodup_cons.mp hnd).1
    rcases List.mem_cons.mp h1 with h1 | h1 <;> rcases List.mem_cons.mp h2 with h2 | h2
    · rw [← h2] at h1
      exact congrArg Prod.fst h1
    · exfalso
      apply hq2t
      rw [← h1]
      exact List.mem_map.mpr ⟨(a', b), h2, rfl⟩
    · exfalso
      apply hq2t
      rw [← h2]
      exact List.mem_map.mpr ⟨(a, b), h1, rfl⟩
    · exact ih (List.nodup_cons.mp hnd).2 a b a' h1 h2

/-! ## The expansion step: full specification -/

theorem expandAt_spec (h : Heap) (G : Graph) (L : List Nat) (c : Nat) (rest : List Nat)
    (hwf : WF h G) (htopo : topoSort G = some L) (hin : inodesOf h L = c :: rest) :
    ∃ h' G', expandAt h G c = some (h', G') ∧
      iterCount h' G' + 1 = iterCount h G ∧ WF h' G' ∧ ¬ hasCycle G' := by
  obtain ⟨hhw, hnd, hep, hrl, hpl, hlv⟩ := hwf
  have hperm := topoSort_perm G L htopo
  obtain ⟨hpc, hcrev, hmin⟩ := filter_head_min _ L.reverse c rest hin
  have hcG : c ∈ G.nodes := hperm.mem_iff.mp (List.mem_reverse.mp hcrev)
  -- strict descendants of c carry no iterables
  have hdesc : ∀ x ∈ reachableFrom G c, x ≠ c → (lookupN h x).iterables = [] := by
    intro x hx hne
    by_contra hit
    have hpx : (!(lookupN h x).iterables.isEmpty) = true := by
      simpa [List.isEmpty_iff] using hit
    have hxG : x ∈ G.nodes := reachableFrom_sub G c hcG hep x hx
    have hxrev : x ∈ L.reverse := List.mem_reverse.mpr (hperm.mem_iff.mpr hxG)
    have hmin2 := hmin x hxrev hpx
    have hrtg := reachableFrom_rtg G c x hx
    rcases Relation.ReflTransGen.cases_head hrtg with heq | ⟨y, hcy, hyx⟩
    · exact hne heq.symm
    · have h1 : L.reverse.indexOf x ≤ L.reverse.indexOf y :=
        rtg_rev_indexOf_le G L htopo hnd hep y x hyx
      obtain ⟨pp, hpp⟩ := hcy
      have h2 : L.reverse.indexOf y < L.reverse.indexOf c :=
        topoSort_rev_indexOf G L htopo hnd hep _ hpp
      omega
  -- abbreviations and basic facts about the cleared heap and the subgraph
  have hsubsub : ∀ x ∈ reachableFrom G c, x ∈ G.nodes := reachableFrom_sub G c hcG hep
  have hSmem : ∀ x, x ∈ (subgraphOf G (reachableFrom G c)).nodes ↔
      x ∈ reachableFrom G c := by
    intro x
    constructor
    · intro hx
      have := List.mem_filter.mp hx
      simpa using this.2
    · intro hx
      exact List.mem_filter.mpr ⟨hsubsub x hx, by simpa using hx⟩
  have hcS : c ∈ (subgraphOf G (reachableFrom G c)).nodes :=
    (hSmem c).mpr (reachableFrom_self G c)
  have hclive : nodeLive h c := hlv c hcG
  have hhw1 : heapWF (setN h c
      (fun nd => { nd with iterables := [], nid := nd.nid ++ ['I'] })) :=
    heapWF_setN h c _ hhw
  have hfr1 : (setN h c
      (fun nd => { nd with iterables := [], nid := nd.nid ++ ['I'] })).fresh = h.fresh := rfl
  have hlkc : lookupN (setN h c
      (fun nd => { nd with iterables := [], nid := nd.nid ++ ['I'] })) c =
      { lookupN h c with iterables := [], nid := (lookupN h c).nid ++ ['I'] } :=
    lookupN_setN_same h c _ hclive
  have hlkne : ∀ x, x ≠ c → lookupN (setN h c
      (fun nd => { nd with iterables := [], nid := nd.nid ++ ['I'] })) x = lookupN h x :=
    fun x hx => lookupN_setN_ne h c _ x hx
  have hSnd : (subgraphOf G (reachableFrom G c)).nodes.Nodup := hnd.filter _
  have hSlt : ∀ r ∈ (subgraphOf G (reachableFrom G c)).nodes,
      r < (setN h c (fun nd => { nd with iterables := [], nid := nd.nid ++ ['I'] })).fresh := by
    intro r hr
    rw [hfr1]
    exact hrl r (List.mem_of_mem_filter hr)
  have hSep : ∀ e ∈ (subgraphOf G (reachableFrom G c)).edges,
      e.1 ∈ (subgraphOf G (reachableFrom G c)).nodes ∧
      e.2.1 ∈ (subgraphOf G (reachableFrom G c)).nodes := by
    intro e he
    have heG := List.mem_of_mem_filter he
    have hef := List.of_mem_filter he
    simp only [decide_eq_true_eq, Bool.and_eq_true] at hef
    constructor
    · exact (hSmem e.1).mpr (by simpa using hef.1)
    · exact (hSmem e.2.1).mpr (by simpa using hef.2)
  have hSpl : ∀ e ∈ (subgraphOf G (reachableFrom G c)).edges,
      e.2.2 < (setN h c (fun nd => { nd with iterables := [], nid := nd.nid ++ ['I'] })).fresh := by
    intro e he
    rw [hfr1]
    exact hpl e (List.mem_of_mem_filter he)
  have hids : ∀ n ∈ (subgraphOf G (reachableFrom G c)).nodes,
      ∃ r ∈ G.nodes,
        (lookupN (setN h c (fun nd => { nd with iterables := [], nid := nd.nid ++ ['I'] })) r).nid =
        (lookupN (setN h c (fun nd => { nd with iterables := [], nid := nd.nid ++ ['I'] })) n).nid :=
    fun n hn => ⟨n, List.mem_of_mem_filter hn, rfl⟩
  have hdrv : ∃ o ∈ (subgraphOf G (reachableFrom G c)).nodes,
      (lookupN (setN h c (fun nd => { nd with iterables := [], nid := nd.nid ++ ['I'] })) o).nid =
      (lookupN (setN h c (fun nd => { nd with iterables := [], nid := nd.nid ++ ['I'] })) c).nid :=
    ⟨c, hcS, rfl⟩
  have hmrgS := mergeGraphsC_some
    (setN h c (fun nd => { nd with iterables := [], nid := nd.nid ++ ['I'] })) G
    (reachableFrom G c) (subgraphOf G (reachableFrom G c))
    ((lookupN (setN h c (fun nd => { nd with iterables := [], nid := nd.nid ++ ['I'] })) c).nid)
    ((lookupN h c).iterables) hhw1 hSnd hSlt hSep hSpl hids hdrv
  cases hmc : mergeGraphsC
      (setN h c (fun nd => { nd with iterables := [], nid := nd.nid ++ ['I'] })) G
      (reachableFrom G c) (subgraphOf G (reachableFrom G c))
      ((lookupN (setN h c (fun nd => { nd with iterables := [], nid := nd.nid ++ ['I'] })) c).nid)
      ((lookupN h c).iterables) with
  | none => rw [hmc] at hmrgS; simp at hmrgS
  | some trip =>
    have hmc3 : mergeGraphsC
        (setN h c (fun nd => { nd with iterables := [], nid := nd.nid ++ ['I'] })) G
        (reachableFrom G c) (subgraphOf G (reachableFrom G c))
        ((lookupN (setN h c (fun nd => { nd with iterables := [], nid := nd.nid ++ ['I'] })) c).nid)
        ((lookupN h c).iterables) = some (trip.1, trip.2.1, trip.2.2) := by rw [hmc]
    obtain ⟨einfo, heinfo, _hidxs, _hparams, ML⟩ := mergeGraphsC_facts _ _ _ _ _ _
      trip.1 trip.2.1 trip.2.2 hhw1 hSnd hSlt hSep hSpl hmc3
    obtain ⟨Lnodes, Lnd, Ledges, Lcopy, Lfle, LlkN, LlkP, Llive, Lwf⟩ := ML
    rw [hfr1] at Lfle
    have heifacts := edgeinfoOf_facts
      (setN h c (fun nd => { nd with iterables := [], nid := nd.nid ++ ['I'] })) G
      (subgraphOf G (reachableFrom G c)) (subgraphOf G (reachableFrom G c)).nodes einfo heinfo
    -- membership facts for the removed-part and copies
    have hG0mem : ∀ x, x ∈ (removeNodes G (reachableFrom G c)).nodes ↔
        (x ∈ G.nodes ∧ x ∉ reachableFrom G c) := by
      intro x
      constructor
      · intro hx
        refine ⟨List.mem_of_mem_filter hx, ?_⟩
        have := List.of_mem_filter hx
        simpa using this
      · intro hx
        exact List.mem_filter.mpr ⟨hx.1, by simpa using hx.2⟩
    have hnewNodes : ∀ n ∈ trip.2.2.flatMap (fun ci => ci.nmap.map (fun q => q.2)),
        ∃ ci ∈ trip.2.2, ∃ q ∈ ci.nmap, q.2 = n := by
      intro n hn
      obtain ⟨ci, hci, hq⟩ := List.mem_flatMap.mp hn
      obtain ⟨q, hq2, hqe⟩ := List.mem_map.mp hq
      exact ⟨ci, hci, q, hq2, hqe⟩
    have hnewGe : ∀ n ∈ trip.2.2.flatMap (fun ci => ci.nmap.map (fun q => q.2)),
        h.fresh ≤ n ∧ n < trip.1.fresh := by
      intro n hn
      obtain ⟨ci, hci, q, hq, hqe⟩ := hnewNodes n hn
      have := (Lcopy ci hci).2 q hq
      rw [hfr1] at this
      omega
    have hnewIterNil : ∀ n ∈ trip.2.2.flatMap (fun ci => ci.nmap.map (fun q => q.2)),
        (lookupN trip.1 n).iterables = [] := by
      intro n hn
      obtain ⟨ci, hci, q, hq, hqe⟩ := hnewNodes n hn
      obtain ⟨hkeys, hcf⟩ := Lcopy ci hci
      have hfacts := hcf q hq
      have hq1S : q.1 ∈ (subgraphOf G (reachableFrom G c)).nodes := by
        rw [← hkeys]
        exact List.mem_map_of_mem _ hq
      rw [← hqe, hfacts.2.2.2.1]
      by_cases hc1 : q.1 = c
      · rw [hc1, hlkc]
      · rw [hlkne q.1 hc1]
        exact hdesc q.1 ((hSmem q.1).mp hq1S) hc1
    refine ⟨trip.1, trip.2.1, ?_, ?_, ?_, ?_⟩
    · -- expandAt evaluates to the merge result
      rw [expandAt_def, merge_graphs_def, hmc]
      rfl
    · -- the iterable count decreases by exactly one
      have hcount1 : iterCount trip.1 trip.2.1 =
          (removeNodes G (reachableFrom G c)).nodes.countP
            (fun r => !(lookupN trip.1 r).iterables.isEmpty) +
          (trip.2.2.flatMap (fun ci => ci.nmap.map (fun q => q.2))).countP
            (fun r => !(lookupN trip.1 r).iterables.isEmpty) := by
        unfold iterCount
        rw [Lnodes]
        exact List.countP_append _ _ _
      have hcount2 : (trip.2.2.flatMap (fun ci => ci.nmap.map (fun q => q.2))).countP
          (fun r => !(lookupN trip.1 r).iterables.isEmpty) = 0 := by
        apply List.countP_eq_zero.mpr
        intro n hn
        simp [hnewIterNil n hn]
      have hcount3 : (removeNodes G (reachableFrom G c)).nodes.countP
          (fun r => !(lookupN trip.1 r).iterables.isEmpty) =
          (removeNodes G (reachableFrom G c)).nodes.countP
            (fun r => !(lookupN h r).iterables.isEmpty) := by
        apply List.countP_congr
        intro x hx
        obtain ⟨hxG, hxsub⟩ := (hG0mem x).mp hx
        have hxc : x ≠ c := fun hxe => hxsub (hxe ▸ reachableFrom_self G c)
        rw [LlkN x (by rw [hfr1]; exact hrl x hxG), hlkne x hxc]
      have hsplit : ((G.nodes.filter (fun x => decide (x ∈ reachableFrom G c))).countP
            (fun r => !(lookupN h r).iterables.isEmpty)) +
          ((G.nodes.filter (fun x => !(decide (x ∈ reachableFrom G c)))).countP
            (fun r => !(lookupN h r).iterables.isEmpty)) =
          G.nodes.countP (fun r => !(lookupN h r).iterables.isEmpty) :=
        countP_split _ _ G.nodes
      have hfeq : G.nodes.filter (fun x => !(decide (x ∈ reachableFrom G c))) =
          (removeNodes G (reachableFrom G c)).nodes := by
        apply List.filter_congr
        intro x _
        simp
      have hone : (G.nodes.filter (fun x => decide (x ∈ reachableFrom G c))).countP
          (fun r => !(lookupN h r).iterables.isEmpty) = 1 := by
        apply countP_eq_one_of _ _ hSnd c hcS hpc
        intro x hx hxc
        have hxsub := (hSmem x).mp hx
        simp [hdesc x hxsub hxc]
      rw [hcount1, hcount2, hcount3]
      rw [hfeq] at hsplit
      unfold iterCount
      omega
    · -- well-formedness is preserved
      refine ⟨Lwf, ?_, ?_, ?_, ?_, ?_⟩
      · -- nodup
        rw [Lnodes]
        refine List.Nodup.append (hnd.filter _) Lnd ?_
        intro a ha1 ha2
        have h1 : a < h.fresh := hrl a (List.mem_of_mem_filter ha1)
        have h2 := (hnewGe a ha2).1
        omega
      · -- edge endpoints are member nodes
        intro e he
        rw [Lnodes]
        rcases Ledges e he with hc | hc | hc
        · have heG := List.mem_of_mem_filter hc
          have hef := List.of_mem_filter hc
          simp only [decide_eq_true_eq, Bool.and_eq_true, decide_not,
            Bool.not_eq_true', decide_eq_false_iff_not] at hef
          constructor
          · exact List.mem_append_left _
              (List.mem_filter.mpr ⟨(hep e heG).1, by simpa using hef.1⟩)
          · exact List.mem_append_left _
              (List.mem_filter.mpr ⟨(hep e heG).2, by simpa using hef.2⟩)
        · obtain ⟨e0, he0, hm1, hm2, _, _, _⟩ := hc
          constructor
          · apply List.mem_append_right
            obtain ⟨ci, hci, hpm⟩ := List.mem_flatMap.mp hm1
            exact List.mem_flatMap.mpr ⟨ci, hci, List.mem_map.mpr ⟨_, hpm, rfl⟩⟩
          · apply List.mem_append_right
            obtain ⟨ci, hci, hpm⟩ := List.mem_flatMap.mp hm2
            exact List.mem_flatMap.mpr ⟨ci, hci, List.mem_map.mpr ⟨_, hpm, rfl⟩⟩
        · obtain ⟨t, ht, he1, _, o, ho⟩ := hc
          obtain ⟨ge, hge, ht1, _, hgS⟩ := heifacts t ht
          constructor
          · apply List.mem_append_left
            apply List.mem_filter.mpr
            refine ⟨by rw [he1, ht1]; exact (hep ge hge).1, ?_⟩
            have : e.1 ∉ reachableFrom G c := by
              rw [he1, ht1]
              intro hcsub
              exact hgS ((hSmem ge.1).mpr hcsub)
            simpa using this
          · apply List.mem_append_right
            obtain ⟨ci, hci, hpm⟩ := List.mem_flatMap.mp ho
            exact List.mem_flatMap.mpr ⟨ci, hci, List.mem_map.mpr ⟨_, hpm, rfl⟩⟩
      · -- node references live below fresh
        intro r hr
        rw [Lnodes] at hr
        rcases List.mem_append.mp hr with hr | hr
        · have := hrl r (List.mem_of_mem_filter hr)
          omega
        · exact (hnewGe r hr).2
      · -- payload references live below fresh
        intro e he
        rcases Ledges e he with hc | hc | hc
        · have := hpl e (List.mem_of_mem_filter hc)
          omega
        · exact hc.choose_spec.2.2.2.2.1
        · obtain ⟨t, ht, _, he2, _⟩ := hc
          obtain ⟨ge, hge, _, ht2, _⟩ := heifacts t ht
          rw [he2, ht2]
          have := hpl ge hge
          omega
      · -- all member nodes dereference to allocated objects
        intro r hr
        rw [Lnodes] at hr
        rcases List.mem_append.mp hr with hr | hr
        · apply Llive
          rw [nodeLive_setN]
          exact hlv r (List.mem_of_mem_filter hr)
        · obtain ⟨ci, hci, q, hq, hqe⟩ := hnewNodes r hr
          rw [← hqe]
          exact ((Lcopy ci hci).2 q hq).2.2.2.2.2
    · -- acyclicity is preserved: rank certificate
      apply rankOk_no_cycle trip.2.1
        (fun x => match (trip.2.2.flatMap (fun ci => ci.nmap)).find? (fun q => q.2 = x) with
          | some q => L.length + L.indexOf q.1
          | none => L.indexOf x)
      have hanmge : ∀ q ∈ trip.2.2.flatMap (fun ci => ci.nmap), h.fresh ≤ q.2 := by
        intro q hq
        obtain ⟨ci, hci, hqm⟩ := List.mem_flatMap.mp hq
        have := ((Lcopy ci hci).2 q hqm).1
        rw [hfr1] at this
        exact this
      have hfindnone : ∀ x, x < h.fresh →
          (trip.2.2.flatMap (fun ci => ci.nmap)).find? (fun q => q.2 = x) = none := by
        intro x hx
        apply List.find?_eq_none.mpr
        intro q hq
        have := hanmge q hq
        simp only [decide_eq_true_eq]
        omega
      have hanmnodup : ((trip.2.2.flatMap (fun ci => ci.nmap)).map (fun q => q.2)).Nodup := by
        rw [List.map_flatMap]
        exact Lnd
      have hfindpair : ∀ (o n : Nat), (o, n) ∈ trip.2.2.flatMap (fun ci => ci.nmap) →
          (trip.2.2.flatMap (fun ci => ci.nmap)).find? (fun q => q.2 = n) = some (o, n) := by
        intro o n hmem
        cases hfq : (trip.2.2.flatMap (fun ci => ci.nmap)).find? (fun q => q.2 = n) with
        | none =>
          exfalso
          have := List.find?_eq_none.mp hfq (o, n) hmem
          simp at this
        | some q' =>
          have hq'm := List.mem_of_find?_eq_some hfq
          have hq'2 : q'.2 = n := by simpa using List.find?_some hfq
          have : q'.1 = o := by
            apply snd_nodup_unique _ hanmnodup q'.1 n o
            · rw [← hq'2]
              simpa using hq'm
            · exact hmem
          rw [← this, ← hq'2]
      intro e he
      rcases Ledges e he with hc | hc | hc
      · -- old edge, both endpoints keep their topological rank
        have heG := List.mem_of_mem_filter hc
        have h1lt : e.1 < h.fresh := hrl e.1 (hep e heG).1
        have h2lt : e.2.1 < h.fresh := hrl e.2.1 (hep e heG).2
        simp only [hfindnone e.1 h1lt, hfindnone e.2.1 h2lt]
        exact topoSort_indexOf G L htopo hnd hep e heG
      · -- copied internal edge: ranks shift by the same offset
        obtain ⟨e0, he0, hm1, hm2, _, _, _⟩ := hc
        have he0G := List.mem_of_mem_filter he0
        simp only [hfindpair e0.1 e.1 hm1, hfindpair e0.2.1 e.2.1 hm2]
        have := topoSort_indexOf G L htopo hnd hep e0 he0G
        omega
      · -- reconnected edge: old source below the copy block
        obtain ⟨t, ht, he1, _, o, ho⟩ := hc
        obtain ⟨ge, hge, ht1, _, _⟩ := heifacts t ht
        have h1lt : e.1 < h.fresh := by
          rw [he1, ht1]
          exact hrl ge.1 (hep ge hge).1
        have h1L : e.1 ∈ L := by
          apply hperm.mem_iff.mpr
          rw [he1, ht1]
          exact (hep ge hge).1
        simp only [hfindnone e.1 h1lt, hfindpair o e.2.1 ho]
        have := List.indexOf_lt_length.mpr h1L
        omega

theorem expandStep_spec (h : Heap) (G : Graph) (hwf : WF h G) (hnc : ¬ hasCycle G) :
    (expandStep h G = .done ∧ iterCount h G = 0) ∨
    (∃ h' G', expandStep h G = .next h' G' ∧ iterCount h' G' + 1 = iterCount h G ∧
      WF h' G' ∧ ¬ hasCycle G') := by
  have htopoS := topoSort_isSome_of_acyclic G hnc
  cases htopo : topoSort G with
  | none => rw [htopo] at htopoS; simp at htopoS
  | some L =>
    cases hin : inodesOf h L with
    | nil =>
      left
      refine ⟨expandStep_done h G L htopo hin, ?_⟩
      unfold iterCount
      apply List.countP_eq_zero.mpr
      intro x hx
      have hperm := topoSort_perm G L htopo
      have hxL : x ∈ L.reverse := List.mem_reverse.mpr (hperm.mem_iff.mpr hx)
      have := List.filter_eq_nil_iff.mp hin x hxL
      simpa using this
    | cons c rest =>
      right
      obtain ⟨h', G', ha, hct, hwf', hnc'⟩ := expandAt_spec h G L c rest hwf htopo hin
      exact ⟨h', G', expandStep_next_eq h G L c rest (h', G') htopo hin ha, hct, hwf', hnc'⟩

theorem expandLoop_spec :
    ∀ (n : Nat) (h : Heap) (G : Graph), WF h G → ¬ hasCycle G → iterCount h G = n →
      ∃ h' G', expandLoop (n + 1) h G = .ok (h', G') ∧ iterCount h' G' = 0 ∧ WF h' G' := by
  intro n
  induction n with
  | zero =>
    intro h G hwf hnc hcnt
    rcases expandStep_spec h G hwf hnc with ⟨hdone, _⟩ | ⟨h', G', _, hct, _, _⟩
    · exact ⟨h, G, by rw [expandLoop_succ, hdone], hcnt, hwf⟩
    · omega
  | succ n ih =>
    intro h G hwf hnc hcnt
    rcases expandStep_spec h G hwf hnc with ⟨_, hzero⟩ | ⟨h', G', hnext, hct, hwf', hnc'⟩
    · omega
    · obtain ⟨h2, G2, hloop, hc0, hwf2⟩ := ih h' G' hwf' hnc' (by omega)
      refine ⟨h2, G2, ?_, hc0, hwf2⟩
      rw [expandLoop_succ, hnext]
      exact hloop

/-- C7: on every well-formed acyclic input the expansion driver terminates
with all iterables resolved, and each `next` step of the loop strictly
decreases the count of distinct nodes carrying non-empty iterables by
exactly one. -/
theorem generate_expanded_graph_terminates (h : Heap) (G : Graph)
    (hwf : WF h G) (hnc : ¬ hasCycle G) :
    (∃ h' G', _generate_expanded_graph h G = .ok (h', G') ∧ iterCount h' G' = 0) ∧
    (∀ h1 G1 h2 G2, WF h1 G1 → ¬ hasCycle G1 → expandStep h1 G1 = .next h2 G2 →
      iterCount h2 G2 + 1 = iterCount h1 G1) := by
  constructor
  · obtain ⟨h', G', hl, hc0, _⟩ := expandLoop_spec (iterCount h G) h G hwf hnc rfl
    exact ⟨h', G', by rw [generate_expanded_graph_def]; exact hl, hc0⟩
  · intro h1 G1 h2 G2 hwf1 hnc1 hstep
    rcases expandStep_spec h1 G1 hwf1 hnc1 with ⟨hdone, _⟩ | ⟨h2', G2', hnext, hct, _, _⟩
    · rw [hdone] at hstep
      exact absurd hstep (by simp)
    · rw [hnext] at hstep
      injection hstep with hs1 hs2
      rw [← hs1, ← hs2]
      exact hct

/-- C1: on a well-formed acyclic graph in which every node's iterables
mapping is empty, `_generate_expanded_graph` returns the input heap and graph
unchanged: no node or edge is added or removed and no identity changes. -/
theorem generate_identity_on_iterable_free (h : Heap) (G : Graph)
    (_hwf : WF h G) (hnc : ¬ hasCycle G)
    (hiter : ∀ r ∈ G.nodes, (lookupN h r).iterables = []) :
    _generate_expanded_graph h G = .ok (h, G) := by
  have hcnt : iterCount h G = 0 := by
    unfold iterCount
    apply List.countP_eq_zero.mpr
    intro x hx
    simp [hiter x hx]
  have htopoS := topoSort_isSome_of_acyclic G hnc
  cases htopo : topoSort G with
  | none => rw [htopo] at htopoS; simp at htopoS
  | some L =>
    have hperm := topoSort_perm G L htopo
    have hin : inodesOf h L = [] := by
      unfold inodesOf
      apply List.filter_eq_nil_iff.mpr
      intro x hx
      have hxG : x ∈ G.nodes := hperm.mem_iff.mp (List.mem_reverse.mp hx)
      simp [hiter x hxG]
    rw [generate_expanded_graph_def, hcnt, expandLoop_succ,
      expandStep_done h G L htopo hin]

/-- C9: a well-formed graph containing a directed cycle makes the driver
fail fatally on the topological sort, before any mutation: the result is the
cycle error and no graph is returned. -/
theorem generate_fails_on_cycle (h : Heap) (G : Graph) (hwf : WF h G)
    (hcyc : hasCycle G) : _generate_expanded_graph h G = .error .cycle := by
  obtain ⟨_, hnd, hep, _⟩ := hwf
  have ht := topoSort_none_of_cycle G hcyc hnd hep
  rw [generate_expanded_graph_def, expandLoop_succ, expandStep_cycle h G ht]

/-- C8: in an iteration of the driver's loop, the node selected for
expansion is the head of the sink-ward-ordered iterable-carrying nodes: it
carries non-empty iterables, and no node with non-empty iterables precedes
it in the reversed topological order. -/
theorem expandStep_selects_sinkward_first (h : Heap) (G : Graph) (L : List Nat)
    (c : Nat) (rest : List Nat) (htopo : topoSort G = some L)
    (hin : inodesOf h L = c :: rest) :
    (lookupN h c).iterables ≠ [] ∧
    (∀ x ∈ L.reverse, (lookupN h x).iterables ≠ [] →
      L.reverse.indexOf c ≤ L.reverse.indexOf x) ∧
    expandStep h G =
      (match expandAt h G c with
        | none => StepRes.idErr
        | some r => StepRes.next r.1 r.2) := by
  obtain ⟨hpc, hcrev, hmin⟩ := filter_head_min _ L.reverse c rest hin
  refine ⟨?_, ?_, ?_⟩
  · intro hc
    rw [hc] at hpc
    simp at hpc
  · intro x hx hxi
    apply hmin x hx
    simpa [List.isEmpty_iff] using hxi
  · unfold expandStep
    rw [htopo]
    show (match inodesOf h L with
      | [] => StepRes.done
      | c :: _ =>
        match expandAt h G c with
        | none => StepRes.idErr
        | some r => StepRes.next r.1 r.2) = _
    rw [hin]

/-- C10: if the selected node maps some iterable name to an empty value
sequence, the cartesian product is empty, so the duplication pass inserts no
copies: the node's whole descendant closure is silently removed and the
driver continues without error. -/
theorem empty_iterable_deletes_closure (h : Heap) (G : Graph) (L : List Nat)
    (c : Nat) (rest : List Nat) (hwf : WF h G) (htopo : topoSort G = some L)
    (hin : inodesOf h L = c :: rest)
    (hempty : ∃ k, (k, ([] : List Val)) ∈ (lookupN h c).iterables) :
    walk (lookupN h c).iterables [] = [] ∧
    ∃ h', expandStep h G = .next h' (removeNodes G (reachableFrom G c)) ∧
      (removeNodes G (reachableFrom G c)).nodes =
        G.nodes.filter (fun r => r ∉ reachableFrom G c) := by
  obtain ⟨_, hnd, hep, hrl, hpl, hlv⟩ := hwf
  obtain ⟨k, hk⟩ := hempty
  have hwalk := walk_nil_of_empty_value (lookupN h c).iterables [] k hk
  refine ⟨hwalk, ?_⟩
  have hids : ∀ n ∈ (subgraphOf G (reachableFrom G c)).nodes,
      ∃ r ∈ G.nodes,
        (lookupN (setN h c (fun nd => { nd with iterables := [], nid := nd.nid ++ ['I'] })) r).nid =
        (lookupN (setN h c (fun nd => { nd with iterables := [], nid := nd.nid ++ ['I'] })) n).nid :=
    fun n hn => ⟨n, List.mem_of_mem_filter hn, rfl⟩
  have hei := edgeinfoOf_some
    (setN h c (fun nd => { nd with iterables := [], nid := nd.nid ++ ['I'] })) G
    (subgraphOf G (reachableFrom G c)) (subgraphOf G (reachableFrom G c)).nodes hids
  cases heinf : edgeinfoOf
      (setN h c (fun nd => { nd with iterables := [], nid := nd.nid ++ ['I'] })) G
      (subgraphOf G (reachableFrom G c)) (subgraphOf G (reachableFrom G c)).nodes with
  | none => rw [heinf] at hei; simp at hei
  | some einfo =>
    have hmerge : mergeGraphsC
        (setN h c (fun nd => { nd with iterables := [], nid := nd.nid ++ ['I'] })) G
        (reachableFrom G c) (subgraphOf G (reachableFrom G c))
        ((lookupN (setN h c (fun nd => { nd with iterables := [], nid := nd.nid ++ ['I'] })) c).nid)
        ((lookupN h c).iterables) =
        some ((setN h c (fun nd => { nd with iterables := [], nid := nd.nid ++ ['I'] })),
          removeNodes G (reachableFrom G c), []) := by
      rw [mergeGraphsC_def, heinf, hwalk]
      rfl
    have hat : expandAt h G c =
        some ((setN h c (fun nd => { nd with iterables := [], nid := nd.nid ++ ['I'] })),
          removeNodes G (reachableFrom G c)) := by
      rw [expandAt_def, merge_graphs_def, hmerge]
      rfl
    refine ⟨setN h c (fun nd => { nd with iterables := [], nid := nd.nid ++ ['I'] }), ?_, rfl⟩
    exact expandStep_next_eq h G L c rest _ htopo hin hat

/-! ## The duplication pass: identities, parameterization and edge payloads -/

theorem fst_nodup_unique :
    ∀ (m : List (Nat × Nat)), (m.map (fun q => q.1)).Nodup →
      ∀ a b b', (a, b) ∈ m → (a, b') ∈ m → b = b' := by
  intro m
  induction m with
  | nil => intro _ a b b' h1; simp at h1
  | cons q t ih =>
    intro hnd a b b' h1 h2
    have hq1t : q.1 ∉ t.map (fun q => q.1) := by
      simpa using (List.nodup_cons.mp hnd).1
    rcases List.mem_cons.mp h1 with h1 | h1 <;> rcases List.mem_cons.mp h2 with h2 | h2
    · rw [← h2] at h1
      exact congrArg Prod.snd h1
    · exfalso
      apply hq1t
      rw [← h1]
      exact List.mem_map.mpr ⟨(a, b'), h2, rfl⟩
    · exfalso
      apply hq1t
      rw [← h2]
      exact List.mem_map.mpr ⟨(a, b), h1, rfl⟩
    · exact ih (List.nodup_cons.mp hnd).2 a b b' h1 h2

/-- A supergraph holding a node already named `A0` next to the subgraph's
driving node `A`: the well-formed setting of the C2 counterexample. -/
def hC2x : Heap := ⟨[(10, ⟨strOf "A0", [], [], []⟩), (11, ⟨strOf "A", [], [], []⟩)], [], 12⟩

def GC2x : Graph := ⟨[10, 11], []⟩

def SC2x : Graph := ⟨[11], []⟩

/-- C2 (counterexample): a duplication pass over a well-formed supergraph
whose identities start out pairwise distinct (`A0` and `A`) can end with a
collision: the single copy of `A` receives the suffixed identity `A0`,
equal to the identity of the untouched pre-existing node.  Global
uniqueness after the pass, as claimed, fails. -/
theorem merge_identity_collision_cex :
    (heapWF hC2x ∧ graphWF hC2x GC2x) ∧
    (GC2x.nodes.map (fun n => (lookupN hC2x n).nid)).Nodup ∧
    ((_merge_graphs hC2x GC2x [11] SC2x (strOf "A") [(strOf "x", [strOf "1"])]).map
      (fun r => r.2.nodes.map (fun n => (lookupN r.1 n).nid))) =
      some [strOf "A0", strOf "A0"] ∧
    ((_merge_graphs hC2x GC2x [11] SC2x (strOf "A") [(strOf "x", [strOf "1"])]).map
      (fun r => decide (r.2.nodes.map (fun n => (lookupN r.1 n).nid)).Nodup)) =
      some false :=
  ⟨by decide, by decide, by decide, by decide⟩

/-- C2 (amended): after a successful `_merge_graphs` pass, every node of
copy `i` carries the identity of its pre-copy original with the decimal
digits of `i` appended, and within one copy these identities are pairwise
distinct whenever the subgraph's pre-copy identities are; uniqueness across
the whole supergraph, however, is not guaranteed (see the counterexample
with a pre-existing node already named like a suffixed copy). -/
theorem merge_suffixes_ids (h : Heap) (G : Graph) (nodes : List Nat) (S : Graph)
    (nodeid : Str) (iterables : List (Str × List Val))
    (h' : Heap) (G' : Graph) (infos : List CopyInfo)
    (hhw : heapWF h) (hSnd : S.nodes.Nodup)
    (hSlt : ∀ r ∈ S.nodes, r < h.fresh)
    (hSep : ∀ e ∈ S.edges, e.1 ∈ S.nodes ∧ e.2.1 ∈ S.nodes)
    (hSpl : ∀ e ∈ S.edges, e.2.2 < h.fresh)
    (hsucc : mergeGraphsC h G nodes S nodeid iterables = some (h', G', infos)) :
    _merge_graphs h G nodes S nodeid iterables = some (h', G') ∧
    ∀ ci ∈ infos,
      (∀ q ∈ ci.nmap,
        (lookupN h' q.2).nid = (lookupN h q.1).nid ++ Nat.toDigits 10 ci.idx) ∧
      ((S.nodes.map (fun r => (lookupN h r).nid)).Nodup →
        ∀ q ∈ ci.nmap, ∀ q2 ∈ ci.nmap, q.2 ≠ q2.2 →
          (lookupN h' q.2).nid ≠ (lookupN h' q2.2).nid) := by
  obtain ⟨einfo, heinf, hidx, hparams, hfacts⟩ :=
    mergeGraphsC_facts h G nodes S nodeid iterables h' G' infos hhw hSnd hSlt hSep hSpl hsucc
  obtain ⟨_, _, _, hci, _⟩ := hfacts
  refine ⟨by rw [merge_graphs_def, hsucc]; rfl, ?_⟩
  intro ci hcimem
  obtain ⟨hkeys, hq⟩ := hci ci hcimem
  refine ⟨fun q hqm => (hq q hqm).2.2.1, ?_⟩
  intro hids q hqm q2 hq2m hne heq
  obtain ⟨qa, qb⟩ := q
  obtain ⟨qa2, qb2⟩ := q2
  have h1 := (hq (qa, qb) hqm).2.2.1
  have h2 := (hq (qa2, qb2) hq2m).2.2.1
  rw [h1, h2] at heq
  have h3 : (lookupN h (qa, qb).1).nid = (lookupN h (qa2, qb2).1).nid :=
    List.append_cancel_right heq
  have hqaS : (qa, qb).1 ∈ S.nodes := by
    rw [← hkeys]
    exact List.mem_map_of_mem _ hqm
  have hqa2S : (qa2, qb2).1 ∈ S.nodes := by
    rw [← hkeys]
    exact List.mem_map_of_mem _ hq2m
  have h4 : qa = qa2 := List.inj_on_of_nodup_map hids hqaS hqa2S h3
  subst h4
  have hfstnd : (ci.nmap.map (fun q => q.1)).Nodup := by
    rw [hkeys]
    exact hSnd
  exact hne (fst_nodup_unique ci.nmap hfstnd qa qb qb2 hqm hq2m)

/-- The heap, supergraph, subgraph and iterables of the shared witness
scenario: supergraph `B → A` with one recorded payload object, subgraph
`{A}`, and a two-valued iterable on `A`. -/
def hW : Heap :=
  ⟨[(20, ⟨strOf "B", [], [], []⟩), (21, ⟨strOf "A", [], [strOf "p"], []⟩)],
   [(30, [(strOf "o", strOf "i")])], 31⟩

def GW : Graph := ⟨[20, 21], [(20, 21, 30)]⟩

def SW : Graph := ⟨[21], []⟩

def itW : List (Str × List Val) := [(strOf "x", [strOf "1", strOf "2"])]

/-- The result of the witness scenario's duplication pass. -/
def tripW : Heap × Graph × List CopyInfo :=
  (mergeGraphsC hW GW [21] SW (strOf "A") itW).getD ⟨⟨[], [], 0⟩, ⟨[], []⟩, []⟩

/-- Witness for the amended C2 theorem on the concrete two-copy scenario. -/
theorem merge_suffixes_ids_witness :
    heapWF hW ∧ SW.nodes.Nodup ∧ (∀ r ∈ SW.nodes, r < hW.fresh) ∧
    (∀ e ∈ SW.edges, e.1 ∈ SW.nodes ∧ e.2.1 ∈ SW.nodes) ∧
    (∀ e ∈ SW.edges, e.2.2 < hW.fresh) ∧
    mergeGraphsC hW GW [21] SW (strOf "A") itW = some (tripW.1, tripW.2.1, tripW.2.2) ∧
    (_merge_graphs hW GW [21] SW (strOf "A") itW = some (tripW.1, tripW.2.1) ∧
     ∀ ci ∈ tripW.2.2,
       (∀ q ∈ ci.nmap,
         (lookupN tripW.1 q.2).nid = (lookupN hW q.1).nid ++ Nat.toDigits 10 ci.idx) ∧
       ((SW.nodes.map (fun r => (lookupN hW r).nid)).Nodup →
         ∀ q ∈ ci.nmap, ∀ q2 ∈ ci.nmap, q.2 ≠ q2.2 →
           (lookupN tripW.1 q.2).nid ≠ (lookupN tripW.1 q2.2).nid)) :=
  ⟨by decide, by decide, by decide, by decide, by decide, by decide,
   merge_suffixes_ids hW GW [21] SW (strOf "A") itW tripW.1 tripW.2.1 tripW.2.2
     (by decide) (by decide) (by decide) (by decide) (by decide) (by decide)⟩

/-- The supergraph of the C3 counterexample: an external edge `B → A` into
the subgraph `{A}`, with its `connect` payload stored at reference 30. -/
def hC3x : Heap :=
  ⟨[(20, ⟨strOf "B", [], [], []⟩), (21, ⟨strOf "A", [], [], []⟩)],
   [(30, [(strOf "o", strOf "i")])], 31⟩

def GC3x : Graph := ⟨[20, 21], [(20, 21, 30)]⟩

def SC3x : Graph := ⟨[21], []⟩

/-- C3 (counterexample): after a duplication pass with two copies, both
reconnected external in-edges carry payload reference 30 — the very payload
object of the original supergraph edge `(20, 21, 30)`, shared by both
copies, not a deep copy of it.  The claim that a duplicated edge's payload
is never the same object as its source fails for reconnected edges. -/
theorem merge_edge_payload_alias_cex :
    (heapWF hC3x ∧ graphWF hC3x GC3x) ∧
    GC3x.edges = [(20, 21, 30)] ∧
    ((_merge_graphs hC3x GC3x [21] SC3x (strOf "A")
        [(strOf "x", [strOf "1", strOf "2"])]).map (fun r => r.2.edges)) =
      some [(20, 31, 30), (20, 32, 30)] :=
  ⟨by decide, by decide, by decide⟩

/-- C3 (amended): every edge of the post-pass supergraph is (a) a surviving
pre-existing edge, or (b) an edge internal to a copy, whose payload lives at
a reference at or above the pre-pass allocation mark — hence a different
object from the source subgraph edge's payload — and is structurally equal
to that source payload, or (c) a reconnected external in-edge whose payload
reference equals that of a recorded supergraph edge: the original payload
object itself, not a copy, contrary to the original claim. -/
theorem merge_edge_payloads (h : Heap) (G : Graph) (nodes : List Nat) (S : Graph)
    (nodeid : Str) (iterables : List (Str × List Val))
    (h' : Heap) (G' : Graph) (infos : List CopyInfo)
    (hhw : heapWF h) (hSnd : S.nodes.Nodup)
    (hSlt : ∀ r ∈ S.nodes, r < h.fresh)
    (hSep : ∀ e ∈ S.edges, e.1 ∈ S.nodes ∧ e.2.1 ∈ S.nodes)
    (hSpl : ∀ e ∈ S.edges, e.2.2 < h.fresh)
    (hsucc : mergeGraphsC h G nodes S nodeid iterables = some (h', G', infos)) :
    _merge_graphs h G nodes S nodeid iterables = some (h', G') ∧
    ∀ e ∈ G'.edges,
      e ∈ (removeNodes G nodes).edges ∨
      (∃ e0 ∈ S.edges, h.fresh ≤ e.2.2 ∧ e.2.2 ≠ e0.2.2 ∧
        lookupP h' e.2.2 = lookupP h e0.2.2) ∨
      (∃ ge ∈ G.edges, e.2.2 = ge.2.2) := by
  obtain ⟨einfo, heinf, hidx, hparams, hfacts⟩ :=
    mergeGraphsC_facts h G nodes S nodeid iterables h' G' infos hhw hSnd hSlt hSep hSpl hsucc
  obtain ⟨_, _, hedges, _⟩ := hfacts
  refine ⟨by rw [merge_graphs_def, hsucc]; rfl, ?_⟩
  intro e he
  rcases hedges e he with hA | ⟨e0, he0, hm1, hm2, hge, hlt, hlp⟩ | ⟨t, ht, hte1, hte2, ho⟩
  · exact Or.inl hA
  · refine Or.inr (Or.inl ⟨e0, he0, hge, ?_, hlp⟩)
    have := hSpl e0 he0
    omega
  · obtain ⟨ge, hgeG, htg1, htg2, hgeS⟩ := edgeinfoOf_facts h G S S.nodes einfo heinf t ht
    exact Or.inr (Or.inr ⟨ge, hgeG, by rw [hte2, htg2]⟩)

/-- Witness for the amended C3 theorem on the concrete two-copy scenario. -/
theorem merge_edge_payloads_witness :
    heapWF hW ∧ SW.nodes.Nodup ∧ (∀ r ∈ SW.nodes, r < hW.fresh) ∧
    (∀ e ∈ SW.edges, e.1 ∈ SW.nodes ∧ e.2.1 ∈ SW.nodes) ∧
    (∀ e ∈ SW.edges, e.2.2 < hW.fresh) ∧
    mergeGraphsC hW GW [21] SW (strOf "A") itW = some (tripW.1, tripW.2.1, tripW.2.2) ∧
    (_merge_graphs hW GW [21] SW (strOf "A") itW = some (tripW.1, tripW.2.1) ∧
     ∀ e ∈ tripW.2.1.edges,
       e ∈ (removeNodes GW [21]).edges ∨
       (∃ e0 ∈ SW.edges, hW.fresh ≤ e.2.2 ∧ e.2.2 ≠ e0.2.2 ∧
         lookupP tripW.1 e.2.2 = lookupP hW e0.2.2) ∨
       (∃ ge ∈ GW.edges, e.2.2 = ge.2.2)) :=
  ⟨by decide, by decide, by decide, by decide, by decide, by decide,
   merge_edge_payloads hW GW [21] SW (strOf "A") itW tripW.1 tripW.2.1 tripW.2.2
     (by decide) (by decide) (by decide) (by decide) (by decide) (by decide)⟩

/-- C6: in a successful duplication pass the copies enumerate exactly the
assignments of the cartesian product, and every node of every copy has the
single path segment of that copy's assignment front-inserted onto its
previous parameterization list — nothing is removed or reordered. -/
theorem merge_prepends_parameterization (h : Heap) (G : Graph) (nodes : List Nat)
    (S : Graph) (nodeid : Str) (iterables : List (Str × List Val))
    (h' : Heap) (G' : Graph) (infos : List CopyInfo)
    (hhw : heapWF h) (hSnd : S.nodes.Nodup)
    (hSlt : ∀ r ∈ S.nodes, r < h.fresh)
    (hSep : ∀ e ∈ S.edges, e.1 ∈ S.nodes ∧ e.2.1 ∈ S.nodes)
    (hSpl : ∀ e ∈ S.edges, e.2.2 < h.fresh)
    (hsucc : mergeGraphsC h G nodes S nodeid iterables = some (h', G', infos)) :
    _merge_graphs h G nodes S nodeid iterables = some (h', G') ∧
    infos.map (fun ci => ci.params) = walk iterables [] ∧
    ∀ ci ∈ infos, ∀ q ∈ ci.nmap,
      (lookupN h' q.2).parameterization =
        paramStrOf ci.params :: (lookupN h q.1).parameterization := by
  obtain ⟨einfo, heinf, hidx, hparams, hfacts⟩ :=
    mergeGraphsC_facts h G nodes S nodeid iterables h' G' infos hhw hSnd hSlt hSep hSpl hsucc
  obtain ⟨_, _, _, hci, _⟩ := hfacts
  refine ⟨by rw [merge_graphs_def, hsucc]; rfl, hparams, ?_⟩
  intro ci hcimem q hqm
  exact ((hci ci hcimem).2 q hqm).2.2.2.2.1

/-- Witness for the C6 theorem on the concrete two-copy scenario. -/
theorem merge_prepends_parameterization_witness :
    heapWF hW ∧ SW.nodes.Nodup ∧ (∀ r ∈ SW.nodes, r < hW.fresh) ∧
    (∀ e ∈ SW.edges, e.1 ∈ SW.nodes ∧ e.2.1 ∈ SW.nodes) ∧
    (∀ e ∈ SW.edges, e.2.2 < hW.fresh) ∧
    mergeGraphsC hW GW [21] SW (strOf "A") itW = some (tripW.1, tripW.2.1, tripW.2.2) ∧
    (_merge_graphs hW GW [21] SW (strOf "A") itW = some (tripW.1, tripW.2.1) ∧
     tripW.2.2.map (fun ci => ci.params) = walk itW [] ∧
     ∀ ci ∈ tripW.2.2, ∀ q ∈ ci.nmap,
       (lookupN tripW.1 q.2).parameterization =
         paramStrOf ci.params :: (lookupN hW q.1).parameterization) :=
  ⟨by decide, by decide, by decide, by decide, by decide, by decide,
   merge_prepends_parameterization hW GW [21] SW (strOf "A") itW tripW.1 tripW.2.1 tripW.2.2
     (by decide) (by decide) (by decide) (by decide) (by decide) (by decide)⟩

/-! ## Witness scenarios for the driver claims -/

def h1W : Heap := ⟨[(0, ⟨strOf "A", [], [], []⟩)], [], 1⟩

def G1W : Graph := ⟨[0], []⟩

/-- Witness for C1 on a one-node graph with no iterables. -/
theorem generate_identity_on_iterable_free_witness :
    WF h1W G1W ∧ ¬ hasCycle G1W ∧
    (∀ r ∈ G1W.nodes, (lookupN h1W r).iterables = []) ∧
    _generate_expanded_graph h1W G1W = .ok (h1W, G1W) :=
  have hnc : ¬ hasCycle G1W :=
    rankOk_no_cycle G1W (fun x => x) (fun e he => absurd he (List.not_mem_nil e))
  ⟨by decide, hnc, by decide,
   generate_identity_on_iterable_free h1W G1W (by decide) hnc (by decide)⟩

def h7W : Heap :=
  ⟨[(20, ⟨strOf "B", [], [], []⟩),
    (21, ⟨strOf "A", [(strOf "x", [strOf "1", strOf "2"])], [], []⟩)],
   [(30, [(strOf "o", strOf "i")])], 31⟩

def G7W : Graph := ⟨[20, 21], [(20, 21, 30)]⟩

/-- Witness for C7 on the two-node graph `B → A` with a two-valued iterable
on the sink node `A`. -/
theorem generate_expanded_graph_terminates_witness :
    WF h7W G7W ∧ ¬ hasCycle G7W ∧
    (∃ h' G', _generate_expanded_graph h7W G7W = .ok (h', G') ∧ iterCount h' G' = 0) :=
  have hnc : ¬ hasCycle G7W := rankOk_no_cycle G7W (fun x => x) (by unfold RankOk; decide)
  ⟨by decide, hnc, (generate_expanded_graph_terminates h7W G7W (by decide) hnc).1⟩

/-- Witness for C8 on the same scenario: the sink node `A` (reference 21)
is selected first. -/
theorem expandStep_selects_sinkward_first_witness :
    topoSort G7W = some [20, 21] ∧ inodesOf h7W [20, 21] = [21] ∧
    ((lookupN h7W 21).iterables ≠ [] ∧
     (∀ x ∈ [20, 21].reverse, (lookupN h7W x).iterables ≠ [] →
       [20, 21].reverse.indexOf 21 ≤ [20, 21].reverse.indexOf x) ∧
     expandStep h7W G7W =
       (match expandAt h7W G7W 21 with
         | none => StepRes.idErr
         | some r => StepRes.next r.1 r.2)) :=
  ⟨by decide, by decide,
   expandStep_selects_sinkward_first h7W G7W [20, 21] 21 [] (by decide) (by decide)⟩

def h9W : Heap :=
  ⟨[(0, ⟨strOf "A", [], [], []⟩), (1, ⟨strOf "B", [], [], []⟩)],
   [(2, []), (3, [])], 4⟩

def G9W : Graph := ⟨[0, 1], [(0, 1, 2), (1, 0, 3)]⟩

/-- Witness for C9 on a two-node directed cycle. -/
theorem generate_fails_on_cycle_witness :
    WF h9W G9W ∧ hasCycle G9W ∧
    _generate_expanded_graph h9W G9W = .error .cycle :=
  have hcyc : hasCycle G9W :=
    ⟨0, 1, ⟨2, by decide⟩, Relation.ReflTransGen.single ⟨3, by decide⟩⟩
  ⟨by decide, hcyc, generate_fails_on_cycle h9W G9W (by decide) hcyc⟩

def hXW : Heap :=
  ⟨[(0, ⟨strOf "A", [(strOf "x", [])], [], []⟩), (1, ⟨strOf "B", [], [], []⟩)],
   [(2, [])], 3⟩

def GXW : Graph := ⟨[0, 1], [(0, 1, 2)]⟩

/-- Witness for C10 on a graph `A → B` where `A` maps the iterable name `x`
to an empty value sequence: the whole graph is deleted without error. -/
theorem empty_iterable_deletes_closure_witness :
    WF hXW GXW ∧ topoSort GXW = some [0, 1] ∧ inodesOf hXW [0, 1] = [0] ∧
    (∃ k, (k, ([] : List Val)) ∈ (lookupN hXW 0).iterables) ∧
    (walk (lookupN hXW 0).iterables [] = [] ∧
     ∃ h', expandStep hXW GXW = .next h' (removeNodes GXW (reachableFrom GXW 0)) ∧
       (removeNodes GXW (reachableFrom GXW 0)).nodes =
         GXW.nodes.filter (fun r => r ∉ reachableFrom GXW 0)) :=
  ⟨by decide, by decide, by decide, ⟨strOf "x", by decide⟩,
   empty_iterable_deletes_closure hXW GXW [0, 1] 0 [] (by decide) (by decide) (by decide)
     ⟨strOf "x", by decide⟩⟩

end Nipype

